import Mathlib

set_option linter.unreachableTactic false

/-!
# Verification of the BEDROT custom-nodes bracket-language front end

This file gives a shallow embedding, over `List Char`, of the JavaScript
syntax highlighter in `src/web/bedrot_preview.js` (the document containing the
`TAG_BYPASS` logic: `BedrotSyntaxHighlighter.tokenize`, `findMatchingBracket`,
`tokensToHTML`'s orphan/unused-flag computation and `escapeHTML`), of
`updateComboOptions` from `src/web/bedrot_loadimage.js`, and — since the Python
encoder itself is not among the sources — a model of the conditional-bracket
resolver built from the repository's own specification documents.

Strings are embedded as `List Char` and positions as `Nat`.  The scanner's
`while` loop and the recursive bracket matcher are embedded with an explicit
fuel parameter (always called with `length + 1`, which is provably sufficient
because every iteration advances the position); this keeps every definition
structurally recursive and hence computable by `decide`/`rfl`.
-/

namespace Bedrot

/-- The seven structural characters of the grammar: the character class
`[\[\](){}|]` used both by the plain-text accumulation loop and (negated) by
the parenthesis regex `[^()\[\]{}|]` in `tokenize`. -/
def isStructural (c : Char) : Bool :=
  c = '[' || c = ']' || c = '(' || c = ')' || c = '{' || c = '}' || c = '|'

/-- JavaScript's `\s` character class, restricted to its ASCII members
(space, tab, line feed, vertical tab, form feed, carriage return).  The
repository's inputs are ASCII, so the unicode members are irrelevant here. -/
def jsSpace (c : Char) : Bool :=
  c = ' ' || c = '\t' || c = '\n' || c = '\x0b' || c = '\x0c' || c = '\r'

/-- `parseInt` on a nonempty run of decimal digits. -/
def natOfDigits (ds : List Char) : Nat :=
  ds.foldl (fun a c => 10 * a + (c.toNat - '0'.toNat)) 0

/-- `Set.add` of a JavaScript `Set`, modelled on insertion-ordered lists:
adding an element already present is a no-op. -/
def addSet (l : List Nat) (n : Nat) : List Nat :=
  if n ∈ l then l else l ++ [n]

/-- The `bracketMap` / `bracketPairs` object of `tokenize` and
`findMatchingBracket`: each paired opener's closing character. -/
def closeOf : Char → Char
  | '(' => ')'
  | '[' => ']'
  | '{' => '}'
  | _   => ' '

/-- Token kinds, from the `TokenType` constant of `bedrot_preview.js`
(the kinds the scanner actually emits). -/
inductive TokType where
  | text
  | parenOpen
  | parenClose
  | parenContent
  | parenWeight
  | curlyOpen
  | curlyClose
  | curlyPipe
  | flagToken
  | condPosDirective
  | condNegDirective
  | condClose
  | invalidToken
  | unbalanced
  | tagBypass
deriving DecidableEq, Repr

/-- One token pushed by `tokenize`: `{type, value, start, end, flagId?,
isNested?, unbalanced?}`.  JavaScript leaves the optional fields undefined
when not set; here they default to `none` / `false`. -/
structure Tok where
  type : TokType
  value : List Char
  start : Nat
  stop : Nat
  flagId : Option Nat
  isNested : Bool
  unbalanced : Bool
deriving DecidableEq, Repr

/-- Kinds of entries on `bracketStack`: the strings `'cond-pos'`,
`'cond-neg'`, `'paren'`, `'curly'`. -/
inductive BrKind where
  | condPos
  | condNeg
  | paren
  | curly
deriving DecidableEq, Repr

/-- One `bracketStack` entry `{type, pos}`. -/
structure BrEntry where
  kind : BrKind
  pos : Nat
deriving DecidableEq, Repr

/-- The `validation` record built by `tokenize`.  The two JavaScript `Set`s
are modelled as insertion-ordered duplicate-free lists (see `addSet`); the two
arrays are plain lists. -/
structure Validation where
  flagsUsed : List Nat
  conditionalsUsed : List Nat
  unbalancedBrackets : List Nat
  nestedConditionals : List Nat
deriving DecidableEq, Repr

/-- Result of `tokenize`.  `finalStack` is the local `bracketStack` as it
stands when the scan loop exits (top of stack at the head); JavaScript keeps
it local, it is exposed here so theorems can speak about the entries that the
end-of-input flush turns into `UnbalancedBracket` diagnostics. -/
structure ScanResult where
  tokens : List Tok
  validation : Validation
  finalStack : List BrEntry
deriving DecidableEq, Repr

/-! ## Pattern matchers

Each regular-expression test at the head of the scan loop becomes a small
total function on the remaining input. -/

/-- The flag-token regex `^\[(\d+)\]`: returns the digit run. -/
def matchFlag : List Char → Option (List Char)
  | '[' :: r =>
    if (r.takeWhile Char.isDigit).isEmpty then none
    else match r.drop (r.takeWhile Char.isDigit).length with
      | ']' :: _ => some (r.takeWhile Char.isDigit)
      | _ => none
  | _ => none

/-- The positive-conditional regex `^\[(\d+):\s*`: returns the digit run and
the greedy run of whitespace after the colon. -/
def matchCondPos : List Char → Option (List Char × List Char)
  | '[' :: r =>
    if (r.takeWhile Char.isDigit).isEmpty then none
    else match r.drop (r.takeWhile Char.isDigit).length with
      | ':' :: u => some (r.takeWhile Char.isDigit, u.takeWhile jsSpace)
      | _ => none
  | _ => none

/-- The negative-conditional regex `^\[(-\d+):\s*`.  `Math.abs(parseInt(...))`
makes the recorded flag id the absolute value, i.e. `natOfDigits` of the digit
run. -/
def matchCondNeg : List Char → Option (List Char × List Char)
  | '[' :: '-' :: r =>
    if (r.takeWhile Char.isDigit).isEmpty then none
    else match r.drop (r.takeWhile Char.isDigit).length with
      | ':' :: u => some (r.takeWhile Char.isDigit, u.takeWhile jsSpace)
      | _ => none
  | _ => none

/-- The bare-negative regex `^\[-\d+\]`. -/
def matchInvalidNeg : List Char → Option (List Char)
  | '[' :: '-' :: r =>
    if (r.takeWhile Char.isDigit).isEmpty then none
    else match r.drop (r.takeWhile Char.isDigit).length with
      | ']' :: _ => some (r.takeWhile Char.isDigit)
      | _ => none
  | _ => none

/-- Whether the trailing part of a parenthesis body parses as the optional
weight group `(:\d+\.?\d*)?` matched against the whole suffix: a colon, one or
more digits, an optional dot, any further digits, and nothing else. -/
def weightOk : List Char → Bool
  | ':' :: t =>
    if (t.takeWhile Char.isDigit).isEmpty then false
    else match t.drop (t.takeWhile Char.isDigit).length with
      | [] => true
      | '.' :: v => v.all Char.isDigit
      | _ => false
  | _ => false

/-- The lazy split performed by `^\(([^()\[\]{}|]*?)(:\d+\.?\d*)?\)`: the
content group takes the *shortest* prefix of the body such that the remainder
is a (possibly empty) weight suffix. -/
def splitCW : List Char → List Char × List Char
  | [] => ([], [])
  | c :: t =>
    if weightOk (c :: t) then ([], c :: t)
    else (c :: (splitCW t).1, (splitCW t).2)

/-- The parenthesis regex `^\(([^()\[\]{}|]*?)(:\d+\.?\d*)?\)`: a `(`,
a run of non-structural characters, then a `)`.  Because the content and
weight classes both exclude every structural character, a match exists exactly
when the first structural character after the `(` is a `)`; the full match
length is `content.length + weight.length + 2`. -/
def matchParen : List Char → Option (List Char × List Char)
  | '(' :: r =>
    match r.drop ((r.takeWhile (fun c => !isStructural c)).length) with
    | ')' :: _ => some (splitCW (r.takeWhile (fun c => !isStructural c)))
    | _ => none
  | _ => none

/-! ## `findMatchingBracket` -/

/-- Fuel-indexed embedding of `findMatchingBracket`'s scan loop.  One unit of
fuel is spent per loop iteration / recursive probe; since every step advances
`pos`, fuel `cs.length + 1` can never run out (the fuel-exhausted result
`none` is unreachable from `findMatchingBracket`).  When the character is a
*different* paired opener the JavaScript recurses to skip the inner group and
jumps `pos` to just past it; the returned position of the matching close
corresponds to the JavaScript `pos - 1` at loop exit. -/
def findMBF (cs : List Char) : Nat → Nat → Char → Char → Nat → Option Nat
  | 0, _, _, _, _ => none
  | fuel + 1, pos, openC, closeC, depth =>
    match cs[pos]? with
    | none => none
    | some ch =>
      if ch = closeC then
        if depth = 1 then some pos
        else findMBF cs fuel (pos + 1) openC closeC (depth - 1)
      else if ch = openC then
        findMBF cs fuel (pos + 1) openC closeC (depth + 1)
      else if ch = '(' ∨ ch = '[' ∨ ch = '{' then
        match findMBF cs fuel (pos + 1) ch (closeOf ch) 1 with
        | some ie => findMBF cs fuel (ie + 1) openC closeC depth
        | none => findMBF cs fuel (pos + 1) openC closeC depth
      else
        findMBF cs fuel (pos + 1) openC closeC depth

/-- `findMatchingBracket(text, startPos, openChar, closeChar)`:
position of the matching close bracket, or `none` (JavaScript `-1`). -/
def findMatchingBracket (cs : List Char) (startPos : Nat) (openC closeC : Char) : Option Nat :=
  findMBF cs (cs.length + 1) startPos openC closeC 1

/-! ## The scan loop -/

/-- Whether the top of `bracketStack` is a conditional entry (the test guarding
the `COND_CLOSE` branch). -/
def condTop : List BrEntry → Bool
  | e :: _ => e.kind = BrKind.condPos || e.kind = BrKind.condNeg
  | [] => false

/-- Whether the top of `bracketStack` is a `paren` entry. -/
def parenTop : List BrEntry → Bool
  | e :: _ => e.kind = BrKind.paren
  | [] => false

/-- Whether the top of `bracketStack` is a `curly` entry. -/
def curlyTop : List BrEntry → Bool
  | e :: _ => e.kind = BrKind.curly
  | [] => false

/-- The end-of-input flush: every entry still on `bracketStack` contributes its
opening position to `validation.unbalancedBrackets`.  The JavaScript iterates
the array bottom-to-top, i.e. in insertion order; the stack here keeps its top
at the head, hence the `reverse`. -/
def flushStack (stack : List BrEntry) (val : Validation) : Validation :=
  ⟨val.flagsUsed, val.conditionalsUsed,
    val.unbalancedBrackets ++ (stack.reverse.map BrEntry.pos), val.nestedConditionals⟩

/-- Fuel-indexed embedding of the `while (pos < text.length)` loop of
`BedrotSyntaxHighlighter.tokenize`.  The branches appear in the source's
order: `---` bypass, flag token, positive conditional, negative conditional,
bare negative, conditional close, full parenthesis match, lone `(`, `)`,
`{`, `}`, `|`, stray `[`, stray `]`, plain-text run.  The local
`inConditional` boolean of the source is omitted: it is written but never
read.  Fuel `cs.length + 1` is always sufficient since every branch strictly
advances `pos`; the fuel-exhausted arm mirrors the end-of-input flush. -/
def tokLoop (cs : List Char) :
    Nat → Nat → List BrEntry → Nat → Validation → ScanResult
  | 0, _, stack, _, val => ⟨[], flushStack stack val, stack⟩
  | fuel + 1, pos, stack, depth, val =>
    match cs[pos]? with
    | none => ⟨[], flushStack stack val, stack⟩
    | some ch =>
      let rest := cs.drop pos
      if rest.take 3 = ['-', '-', '-'] then
        -- `--- ` tag-bypass branch
        match cs[pos + 3]? with
        | some b =>
          if b = '(' ∨ b = '[' ∨ b = '{' then
            match findMatchingBracket cs (pos + 4) b (closeOf b) with
            | some m =>
              let r := tokLoop cs fuel (m + 1) stack depth val
              ⟨⟨TokType.tagBypass, rest.take (m + 1 - pos), pos, m + 1, none, false, false⟩
                  :: r.tokens, r.validation, r.finalStack⟩
            | none =>
              let r := tokLoop cs fuel cs.length stack depth val
              ⟨⟨TokType.tagBypass, rest, pos, cs.length, none, false, true⟩
                  :: r.tokens, r.validation, r.finalStack⟩
          else
            let e := pos + 3 + ((cs.drop (pos + 3)).takeWhile (fun c => c ≠ ',')).length
            let r := tokLoop cs fuel e stack depth val
            ⟨⟨TokType.tagBypass, rest.take (e - pos), pos, e, none, false, false⟩
                :: r.tokens, r.validation, r.finalStack⟩
        | none =>
          let e := pos + 3 + ((cs.drop (pos + 3)).takeWhile (fun c => c ≠ ',')).length
          let r := tokLoop cs fuel e stack depth val
          ⟨⟨TokType.tagBypass, rest.take (e - pos), pos, e, none, false, false⟩
              :: r.tokens, r.validation, r.finalStack⟩
      else match matchFlag rest with
      | some ds =>
        let len := ds.length + 2
        let fid := natOfDigits ds
        let r := tokLoop cs fuel (pos + len) stack depth
          ⟨addSet val.flagsUsed fid, val.conditionalsUsed,
            val.unbalancedBrackets, val.nestedConditionals⟩
        ⟨⟨TokType.flagToken, rest.take len, pos, pos + len, some fid, false, false⟩
            :: r.tokens, r.validation, r.finalStack⟩
      | none => match matchCondPos rest with
      | some (ds, ws) =>
        let len := ds.length + ws.length + 2
        let fid := natOfDigits ds
        let r := tokLoop cs fuel (pos + len) (⟨BrKind.condPos, pos⟩ :: stack) (depth + 1)
          ⟨val.flagsUsed, addSet val.conditionalsUsed fid, val.unbalancedBrackets,
            if 0 < depth then val.nestedConditionals ++ [pos] else val.nestedConditionals⟩
        ⟨⟨TokType.condPosDirective, rest.take len, pos, pos + len, some fid,
            decide (0 < depth), false⟩ :: r.tokens, r.validation, r.finalStack⟩
      | none => match matchCondNeg rest with
      | some (ds, ws) =>
        let len := ds.length + ws.length + 3
        let fid := natOfDigits ds
        let r := tokLoop cs fuel (pos + len) (⟨BrKind.condNeg, pos⟩ :: stack) (depth + 1)
          ⟨val.flagsUsed, addSet val.conditionalsUsed fid, val.unbalancedBrackets,
            if 0 < depth then val.nestedConditionals ++ [pos] else val.nestedConditionals⟩
        ⟨⟨TokType.condNegDirective, rest.take len, pos, pos + len, some fid,
            decide (0 < depth), false⟩ :: r.tokens, r.validation, r.finalStack⟩
      | none => match matchInvalidNeg rest with
      | some ds =>
        let len := ds.length + 3
        let r := tokLoop cs fuel (pos + len) stack depth val
        ⟨⟨TokType.invalidToken, rest.take len, pos, pos + len, none, false, false⟩
            :: r.tokens, r.validation, r.finalStack⟩
      | none =>
        if ch = ']' ∧ condTop stack then
          let r := tokLoop cs fuel (pos + 1) stack.tail (depth - 1) val
          ⟨⟨TokType.condClose, [']'], pos, pos + 1, none, false, false⟩
              :: r.tokens, r.validation, r.finalStack⟩
        else match matchParen rest with
        | some (content, weight) =>
          let len := content.length + weight.length + 2
          let r := tokLoop cs fuel (pos + len) stack depth val
          ⟨⟨TokType.parenOpen, ['('], pos, pos + 1, none, false, false⟩ ::
            ((if content.isEmpty then [] else
                [⟨TokType.parenContent, content, pos + 1, pos + 1 + content.length,
                  none, false, false⟩]) ++
             (if weight.isEmpty then [] else
                [⟨TokType.parenWeight, weight, pos + 1 + content.length,
                  pos + 1 + content.length + weight.length, none, false, false⟩]) ++
             ⟨TokType.parenClose, [')'], pos + len - 1, pos + len, none, false, false⟩
                :: r.tokens), r.validation, r.finalStack⟩
        | none =>
          if ch = '(' then
            let r := tokLoop cs fuel (pos + 1) (⟨BrKind.paren, pos⟩ :: stack) depth val
            ⟨⟨TokType.parenOpen, ['('], pos, pos + 1, none, false, false⟩
                :: r.tokens, r.validation, r.finalStack⟩
          else if ch = ')' then
            if parenTop stack then
              let r := tokLoop cs fuel (pos + 1) stack.tail depth val
              ⟨⟨TokType.parenClose, [')'], pos, pos + 1, none, false, false⟩
                  :: r.tokens, r.validation, r.finalStack⟩
            else
              let r := tokLoop cs fuel (pos + 1) stack depth val
              ⟨⟨TokType.unbalanced, [')'], pos, pos + 1, none, false, false⟩
                  :: r.tokens, r.validation, r.finalStack⟩
          else if ch = '{' then
            let r := tokLoop cs fuel (pos + 1) (⟨BrKind.curly, pos⟩ :: stack) depth val
            ⟨⟨TokType.curlyOpen, ['{'], pos, pos + 1, none, false, false⟩
                :: r.tokens, r.validation, r.finalStack⟩
          else if ch = '}' then
            if curlyTop stack then
              let r := tokLoop cs fuel (pos + 1) stack.tail depth val
              ⟨⟨TokType.curlyClose, ['}'], pos, pos + 1, none, false, false⟩
                  :: r.tokens, r.validation, r.finalStack⟩
            else
              let r := tokLoop cs fuel (pos + 1) stack depth val
              ⟨⟨TokType.unbalanced, ['}'], pos, pos + 1, none, false, false⟩
                  :: r.tokens, r.validation, r.finalStack⟩
          else if ch = '|' then
            let r := tokLoop cs fuel (pos + 1) stack depth val
            ⟨⟨TokType.curlyPipe, ['|'], pos, pos + 1, none, false, false⟩
                :: r.tokens, r.validation, r.finalStack⟩
          else if ch = '[' then
            let r := tokLoop cs fuel (pos + 1) stack depth val
            ⟨⟨TokType.unbalanced, ['['], pos, pos + 1, none, false, false⟩
                :: r.tokens, r.validation, r.finalStack⟩
          else if ch = ']' then
            let r := tokLoop cs fuel (pos + 1) stack depth val
            ⟨⟨TokType.unbalanced, [']'], pos, pos + 1, none, false, false⟩
                :: r.tokens, r.validation, r.finalStack⟩
          else
            let e := pos + 1 + ((cs.drop (pos + 1)).takeWhile (fun c => !isStructural c)).length
            let r := tokLoop cs fuel e stack depth val
            ⟨⟨TokType.text, rest.take (e - pos), pos, e, none, false, false⟩
                :: r.tokens, r.validation, r.finalStack⟩

/-- `BedrotSyntaxHighlighter.tokenize(text)`. -/
def tokenize (cs : List Char) : ScanResult :=
  tokLoop cs (cs.length + 1) 0 [] 0 ⟨[], [], [], []⟩

/-! ## Validator projections from `tokensToHTML` -/

/-- The orphan-flag computation at the head of `tokensToHTML`: flags used as
`[N]` with no conditional referencing them. -/
def orphanFlags (val : Validation) : List Nat :=
  val.flagsUsed.filter (fun fid => ¬ fid ∈ val.conditionalsUsed)

/-- The unused-conditional computation of `tokensToHTML`: conditionals
referencing flags never activated. -/
def unusedConds (val : Validation) : List Nat :=
  val.conditionalsUsed.filter (fun fid => ¬ fid ∈ val.flagsUsed)

/-! ## `escapeHTML` -/

/-- One global `String.replace` of a single character by a string. -/
def replaceChar (target : Char) (repl : List Char) : List Char → List Char
  | [] => []
  | c :: r => (if c = target then repl else [c]) ++ replaceChar target repl r

/-- `BedrotSyntaxHighlighter.escapeHTML`: the source's chain of `.replace`
calls in order (`&`, `<`, `>`, `"`, then the two identity replacements that
keep spaces and newlines for `pre-wrap`). -/
def escapeHTML (s : List Char) : List Char :=
  replaceChar '\n' ['\n']
    (replaceChar ' ' [' ']
      (replaceChar '"' "&quot;".toList
        (replaceChar '>' "&gt;".toList
          (replaceChar '<' "&lt;".toList
            (replaceChar '&' "&amp;".toList s)))))

/-- Per-character entity rewriting; `escapeHTML` is proved equal to mapping
this over the input. -/
def esc1 (c : Char) : List Char :=
  if c = '&' then "&amp;".toList
  else if c = '<' then "&lt;".toList
  else if c = '>' then "&gt;".toList
  else if c = '"' then "&quot;".toList
  else [c]

/-! ## The conditional-bracket resolver

The Python implementation (`_preprocess_conditional_brackets` of
`BedrotCLIPTextEncode`) is not among the source files — only its behaviour is
documented, in `src/specs/unfinished/cliptextpreviewnode.md` (the five
processing steps and their regexes) and `src/bedrot_cliptextencoder/*.md`.
The definitions below are therefore modelled from those documents.  Each of
the removal/evaluation passes scans left to right; a match consumes its whole
extent (the skip counter in the auxiliary functions replays a regex engine
continuing after a match).  Python's `\s` is the six ASCII whitespace
characters, the same set as `jsSpace`. -/

/-- Modelled from the spec: the flag-token pattern `\[(\d+)\]` applied just
after a `[` — a nonempty digit run followed by `]`. -/
def flagPat (r : List Char) : Option (List Char) :=
  if (r.takeWhile Char.isDigit).isEmpty then none
  else match r.drop ((r.takeWhile Char.isDigit).length) with
    | ']' :: _ => some (r.takeWhile Char.isDigit)
    | _ => none

/-- Modelled from the spec: the bare-negative pattern `\[-\d+\]` applied just
after a `[`. -/
def inegPat : List Char → Option (List Char)
  | '-' :: r =>
    if (r.takeWhile Char.isDigit).isEmpty then none
    else match r.drop ((r.takeWhile Char.isDigit).length) with
      | ']' :: _ => some (r.takeWhile Char.isDigit)
      | _ => none
  | _ => none

/-- The content class of the lazy group `(.*?)` up to the closing `]`: any
character other than `]` that `.` can match (i.e. not a newline). -/
def condContentChar (c : Char) : Bool := ¬ (c = ']' ∨ c = '\n')

/-- The greedy `\s*` run after the colon. -/
def wsOf (u : List Char) : List Char := u.takeWhile jsSpace

/-- The lazy `(.*?)` run after the whitespace, up to the first `]` (a newline
blocks the match, see `condContentChar`). -/
def contentOf (u : List Char) : List Char :=
  (u.drop (wsOf u).length).takeWhile condContentChar

/-- Modelled from the spec: the body of a conditional block
`\[([+-]?\d+):\s*(.*?)\]` after the optional sign: digits, a colon, greedy
whitespace, then the lazy content group, which (because `.` does not match a
newline) runs to the first `]` provided no newline intervenes.  Returns the
flag id, the content, and the number of characters consumed. -/
def condPatCore (r : List Char) : Option (Nat × List Char × Nat) :=
  if (r.takeWhile Char.isDigit).isEmpty then none
  else match r.drop ((r.takeWhile Char.isDigit).length) with
    | ':' :: u =>
      match (u.drop (wsOf u).length).drop ((contentOf u).length) with
      | ']' :: _ =>
        some (natOfDigits (r.takeWhile Char.isDigit), contentOf u,
          (r.takeWhile Char.isDigit).length + 1 + (wsOf u).length +
            (contentOf u).length + 1)
      | _ => none
    | _ => none

/-- Modelled from the spec: a conditional block after its `[`, with the
optional `+`/`-` sign.  Returns `(negated, flagId, content, consumed)`. -/
def condPat (r : List Char) : Option (Bool × Nat × List Char × Nat) :=
  match r with
  | '-' :: t => (condPatCore t).map (fun p => (true, p.1, p.2.1, p.2.2 + 1))
  | '+' :: t => (condPatCore t).map (fun p => (false, p.1, p.2.1, p.2.2 + 1))
  | _ => (condPatCore r).map (fun p => (false, p.1, p.2.1, p.2.2))

/-- Modelled from the spec: step 1, flag extraction — collect every id
matched by `\[(\d+)\]`.  The skip argument replays the regex engine moving
past a whole match (the skipped characters contain no `[`, so continuing
character-by-character finds the same later matches). -/
def cfAux : Nat → List Char → List Nat
  | 0, [] => []
  | 0, c :: r =>
    if c = '[' then
      match flagPat r with
      | some ds => natOfDigits ds :: cfAux (ds.length + 1) r
      | none => cfAux 0 r
    else cfAux 0 r
  | _ + 1, [] => []
  | k + 1, _ :: r => cfAux k r

/-- Modelled from the spec: the set of active flags of an input. -/
def collectFlags (t : List Char) : List Nat := cfAux 0 t

/-- Modelled from the spec: step 2, removal of every `[N]` flag token. -/
def rmfAux : Nat → List Char → List Char
  | 0, [] => []
  | 0, c :: r =>
    if c = '[' then
      match flagPat r with
      | some ds => rmfAux (ds.length + 1) r
      | none => '[' :: rmfAux 0 r
    else c :: rmfAux 0 r
  | _ + 1, [] => []
  | k + 1, _ :: r => rmfAux k r

/-- Modelled from the spec: step 3, removal of every bare `[-N]` token. -/
def rmnAux : Nat → List Char → List Char
  | 0, [] => []
  | 0, c :: r =>
    if c = '[' then
      match inegPat r with
      | some ds => rmnAux (ds.length + 2) r
      | none => '[' :: rmnAux 0 r
    else c :: rmnAux 0 r
  | _ + 1, [] => []
  | k + 1, _ :: r => rmnAux k r

/-- Modelled from the spec: step 4, conditional-block evaluation — every
`[K: content]` is replaced by its content when kept (`K > 0` and `K` active,
or `-K` and `K` not active) and by nothing when dropped. -/
def rcAux (F : List Nat) : Nat → List Char → List Char
  | 0, [] => []
  | 0, c :: r =>
    if c = '[' then
      match condPat r with
      | some (neg, fid, content, skip) =>
        (if (if neg then ¬ fid ∈ F else fid ∈ F) then content else []) ++ rcAux F skip r
      | none => '[' :: rcAux F 0 r
    else c :: rcAux F 0 r
  | _ + 1, [] => []
  | k + 1, _ :: r => rcAux F k r

/-- Modelled from the spec: whitespace rule 1 — collapse every run of two or
more plain spaces into one. -/
def collapseSpaces : List Char → List Char
  | ' ' :: ' ' :: r => collapseSpaces (' ' :: r)
  | c :: r => c :: collapseSpaces r
  | [] => []

/-- Modelled from the spec: whitespace rule 2 — remove a space immediately
preceding a comma (runs after `collapseSpaces`, so space runs are single). -/
def rmSpaceComma : List Char → List Char
  | ' ' :: ',' :: r => ',' :: rmSpaceComma r
  | c :: r => c :: rmSpaceComma r
  | [] => []

/-- Modelled from the spec: whitespace rule 3 — trim leading and trailing
whitespace. -/
def trimWs (l : List Char) : List Char :=
  ((l.dropWhile jsSpace).reverse.dropWhile jsSpace).reverse

/-- Modelled from the spec: step 5, whitespace cleanup, rules applied in the
documented order. -/
def normalizeWs (l : List Char) : List Char :=
  trimWs (rmSpaceComma (collapseSpaces l))

/-- Modelled from the spec: steps 2–5 with a given set of active flags. -/
def resolveWithFlags (F : List Nat) (t : List Char) : List Char :=
  normalizeWs (rcAux F 0 (rmnAux 0 (rmfAux 0 t)))

/-- Modelled from the spec: `_preprocess_conditional_brackets` — the full
pipeline, flags collected from the input itself. -/
def resolve (t : List Char) : List Char :=
  resolveWithFlags (collectFlags t) t

/-! ## `updateComboOptions` (`bedrot_loadimage.js`) -/

/-- The `widget.options` object (only its `values` field is relevant). -/
structure WidgetOptions where
  values : List String
deriving DecidableEq, Repr

/-- A COMBO widget: its current `value` and its (possibly missing) `options`
object. -/
structure ComboWidget where
  value : String
  options : Option WidgetOptions
deriving DecidableEq, Repr

/-- JavaScript `options[0] || ""`: the first element unless it is absent or
falsy (the empty string), in which case `""`. -/
def jsFirstOrEmpty : List String → String
  | [] => ""
  | v :: _ => if v = "" then "" else v

/-- `updateComboOptions(widget, options)` from `bedrot_loadimage.js`, as a
pure function returning the updated widget.  A missing widget or a widget
without an `options` object is returned unchanged (the early `return`). -/
def updateComboOptions : Option ComboWidget → List String → Option ComboWidget
  | none, _ => none
  | some w, newOpts =>
    match w.options with
    | none => some w
    | some _ =>
      if newOpts.contains w.value then some ⟨w.value, some ⟨newOpts⟩⟩
      else some ⟨jsFirstOrEmpty newOpts, some ⟨newOpts⟩⟩

/-- `Covers toks a b`: the `[start, stop)` ranges of `toks` tile the interval
`[a, b)` exactly: consecutive, non-overlapping, each nonempty, starting at `a`
and ending at `b`. -/
def Covers : List Tok → Nat → Nat → Prop
  | [], a, b => a = b
  | t :: ts, a, b => t.start = a ∧ a < t.stop ∧ Covers ts t.stop b

/-- The nested-conditional warning positions produced by opening `k`
consecutive conditional directives of width 3 starting at `pos` with `d`
conditionals already open: one warning per directive opened at depth > 0. -/
def warns : Nat → Nat → Nat → List Nat
  | _, _, 0 => []
  | pos, d, k + 1 => (if 0 < d then [pos] else []) ++ warns (pos + 3) (d + 1) k

/-- The claim's two-block directive text `[-K: A][K: B]`, with `K` written as
the digit run `ds`. -/
def fmtPair (ds A B : List Char) : List Char :=
  '[' :: '-' :: (ds ++ ':' :: ' ' :: (A ++ ']' :: ('[' :: (ds ++ ':' :: ' ' :: (B ++ [']'])))))

/-! # Helper lemmas -/

theorem lt_length_of_getElem?_eq_some {cs : List Char} {n : Nat} {c : Char}
    (h : cs[n]? = some c) : n < cs.length := by
  by_contra hn
  push_neg at hn
  rw [List.getElem?_eq_none hn] at h
  exact Option.noConfusion h

theorem take_length_takeWhile (l : List Char) (p : Char → Bool) :
    l.take (l.takeWhile p).length = l.takeWhile p := by
  induction l with
  | nil => simp
  | cons a t ih => by_cases h : p a <;> simp [List.takeWhile_cons, h, ih]

theorem getElem?_length_takeWhile {l : List Char} {p : Char → Bool} {c : Char}
    (h : l[(l.takeWhile p).length]? = some c) : p c = false := by
  induction l with
  | nil => simp at h
  | cons a t ih =>
    by_cases hp : p a
    · rw [List.takeWhile_cons_of_pos hp] at h
      simpa using ih (by simpa using h)
    · rw [List.takeWhile_cons_of_neg hp] at h
      simp at h
      subst h
      simpa using hp

theorem getElem?_lt_length_takeWhile {l : List Char} {p : Char → Bool} {j : Nat} {c : Char}
    (hj : j < (l.takeWhile p).length) (h : l[j]? = some c) : p c = true := by
  induction l generalizing j with
  | nil => simp at h
  | cons a t ih =>
    by_cases hp : p a
    · rw [List.takeWhile_cons_of_pos hp] at hj
      match j with
      | 0 =>
        simp at h
        subst h
        exact hp
      | j' + 1 =>
        simp at h hj
        exact ih (by omega) h
    · rw [List.takeWhile_cons_of_neg hp] at hj
      simp at hj

theorem length_takeWhile_le (l : List Char) (p : Char → Bool) :
    (l.takeWhile p).length ≤ l.length :=
  (List.takeWhile_sublist p).length_le

theorem drop_takeWhile_cons {l tail : List Char} {p : Char → Bool} {c : Char}
    (h : l.drop ((l.takeWhile p).length) = c :: tail) :
    (l.takeWhile p).length + 1 ≤ l.length := by
  have h1 : (l.drop ((l.takeWhile p).length)).length = l.length - (l.takeWhile p).length :=
    List.length_drop _ _
  rw [h] at h1
  have h2 := length_takeWhile_le l p
  simp [List.length_cons] at h1
  omega

theorem matchFlag_bound {r ds : List Char} (h : matchFlag r = some ds) :
    ds ≠ [] ∧ ds.length + 2 ≤ r.length := by
  rw [matchFlag.eq_def] at h
  split at h
  case h_2 => exact Option.noConfusion h
  case h_1 r1 =>
    split at h
    case isTrue => exact Option.noConfusion h
    case isFalse hne =>
      split at h
      case h_2 => exact Option.noConfusion h
      case h_1 c tail heq =>
        cases h
        refine ⟨by simpa using hne, ?_⟩
        have := drop_takeWhile_cons heq
        simp [List.length_cons]
        omega

theorem matchCondPos_bound {r : List Char} {ds ws : List Char}
    (h : matchCondPos r = some (ds, ws)) :
    ds ≠ [] ∧ ds.length + ws.length + 2 ≤ r.length := by
  rw [matchCondPos.eq_def] at h
  split at h
  case h_2 => exact Option.noConfusion h
  case h_1 r1 =>
    split at h
    case isTrue => exact Option.noConfusion h
    case isFalse hne =>
      split at h
      case h_2 => exact Option.noConfusion h
      case h_1 c u heq =>
        cases h
        refine ⟨by simpa using hne, ?_⟩
        have h1 : (r1.drop ((r1.takeWhile Char.isDigit).length)).length
            = r1.length - (r1.takeWhile Char.isDigit).length := List.length_drop _ _
        rw [heq] at h1
        have h2 := length_takeWhile_le r1 Char.isDigit
        have h3 := length_takeWhile_le u jsSpace
        simp [List.length_cons] at h1
        simp [List.length_cons]
        omega

theorem matchCondNeg_bound {r : List Char} {ds ws : List Char}
    (h : matchCondNeg r = some (ds, ws)) :
    ds ≠ [] ∧ ds.length + ws.length + 3 ≤ r.length := by
  rw [matchCondNeg.eq_def] at h
  split at h
  case h_2 => exact Option.noConfusion h
  case h_1 r1 =>
    split at h
    case isTrue => exact Option.noConfusion h
    case isFalse hne =>
      split at h
      case h_2 => exact Option.noConfusion h
      case h_1 c u heq =>
        cases h
        refine ⟨by simpa using hne, ?_⟩
        have h1 : (r1.drop ((r1.takeWhile Char.isDigit).length)).length
            = r1.length - (r1.takeWhile Char.isDigit).length := List.length_drop _ _
        rw [heq] at h1
        have h2 := length_takeWhile_le r1 Char.isDigit
        have h3 := length_takeWhile_le u jsSpace
        simp [List.length_cons] at h1
        simp [List.length_cons]
        omega

theorem matchInvalidNeg_bound {r ds : List Char} (h : matchInvalidNeg r = some ds) :
    ds ≠ [] ∧ ds.length + 3 ≤ r.length := by
  rw [matchInvalidNeg.eq_def] at h
  split at h
  case h_2 => exact Option.noConfusion h
  case h_1 r1 =>
    split at h
    case isTrue => exact Option.noConfusion h
    case isFalse hne =>
      split at h
      case h_2 => exact Option.noConfusion h
      case h_1 c tail heq =>
        cases h
        refine ⟨by simpa using hne, ?_⟩
        have := drop_takeWhile_cons heq
        simp [List.length_cons]
        omega

theorem splitCW_append (s : List Char) : (splitCW s).1 ++ (splitCW s).2 = s := by
  induction s with
  | nil => simp [splitCW]
  | cons c t ih =>
    rw [splitCW]
    split
    · simp
    · simpa using ih

theorem matchParen_bound {r content weight : List Char}
    (h : matchParen r = some (content, weight)) :
    content.length + weight.length + 2 ≤ r.length := by
  rw [matchParen.eq_def] at h
  split at h
  case h_2 => exact Option.noConfusion h
  case h_1 r1 =>
    split at h
    case h_2 => exact Option.noConfusion h
    case h_1 c tail heq =>
      have hsp : splitCW (r1.takeWhile (fun c => !isStructural c)) = (content, weight) :=
        Option.some.inj h
      have hlen : content.length + weight.length
          = (r1.takeWhile (fun c => !isStructural c)).length := by
        have := splitCW_append (r1.takeWhile (fun c => !isStructural c))
        rw [hsp] at this
        simpa using congrArg List.length this
      have := drop_takeWhile_cons heq
      simp [List.length_cons]
      omega

theorem addSet_mem {l : List Nat} {m n : Nat} :
    n ∈ Bedrot.addSet l m ↔ n ∈ l ∨ n = m := by
  unfold Bedrot.addSet
  split
  · constructor
    · exact fun h => Or.inl h
    · rintro (h | rfl)
      · exact h
      · assumption
  · simp

theorem findMBF_some {cs : List Char} :
    ∀ {fuel pos : Nat} {o c : Char} {d r : Nat},
      findMBF cs fuel pos o c d = some r → pos ≤ r ∧ r < cs.length ∧ cs[r]? = some c := by
  intro fuel
  induction fuel with
  | zero =>
    intro pos o c d r h
    simp [findMBF] at h
  | succ fuel ih =>
    intro pos o c d r h
    rw [findMBF] at h
    split at h
    · exact Option.noConfusion h
    case h_2 ch hch =>
      split at h
      · split at h
        · cases h
          exact ⟨Nat.le_refl _, lt_length_of_getElem?_eq_some hch,
            by rwa [← (by assumption : ch = c)]⟩
        · have := ih h
          exact ⟨by omega, this.2.1, this.2.2⟩
      · split at h
        · have := ih h
          exact ⟨by omega, this.2.1, this.2.2⟩
        · split at h
          · split at h
            case h_1 ie hie =>
              have hinner := ih hie
              have := ih h
              exact ⟨by omega, this.2.1, this.2.2⟩
            case h_2 =>
              have := ih h
              exact ⟨by omega, this.2.1, this.2.2⟩
          · have := ih h
            exact ⟨by omega, this.2.1, this.2.2⟩

/-- When `findMatchingBracket` reports a match it lies at or after the start
position, inside the input, and the character there really is the requested
closing bracket. -/
theorem findMatchingBracket_some {cs : List Char} {startPos : Nat} {o c : Char} {r : Nat}
    (h : findMatchingBracket cs startPos o c = some r) :
    startPos ≤ r ∧ r < cs.length ∧ cs[r]? = some c :=
  findMBF_some h

theorem take3_length {l : List Char} (h : l.take 3 = ['-', '-', '-']) : 3 ≤ l.length := by
  have := congrArg List.length h
  simp [List.length_take] at this
  omega

theorem tokLoop_covers (cs : List Char) :
    ∀ (fuel pos : Nat) (stack : List BrEntry) (depth : Nat) (val : Validation),
      pos ≤ cs.length → cs.length - pos < fuel →
      Covers (tokLoop cs fuel pos stack depth val).tokens pos cs.length := by
  intro fuel
  induction fuel with
  | zero =>
    intro pos stack depth val hpos hf
    omega
  | succ fuel ih =>
    intro pos stack depth val hpos hf
    have hdl : (cs.drop pos).length = cs.length - pos := List.length_drop _ _
    have hdl1 : (cs.drop (pos + 1)).length = cs.length - (pos + 1) := List.length_drop _ _
    have hdl3 : (cs.drop (pos + 3)).length = cs.length - (pos + 3) := List.length_drop _ _
    simp only [tokLoop]
    cases hch : cs[pos]? with
    | none =>
      have hge : cs.length ≤ pos := by
        by_contra hc
        push_neg at hc
        rw [List.getElem?_eq_getElem hc] at hch
        exact Option.noConfusion hch
      simp only [Covers]
      omega
    | some ch =>
      have hlt : pos < cs.length := lt_length_of_getElem?_eq_some hch
      simp only
      split
      case isTrue hby =>
        have h3 : 3 ≤ (cs.drop pos).length := take3_length hby
        split
        case h_1 b hb3 =>
          split
          case isTrue hop =>
            split
            case h_1 m hm =>
              obtain ⟨hm1, hm2, _⟩ := findMatchingBracket_some hm
              exact ⟨rfl, by first | omega | (dsimp only; omega) | (dsimp only), ih (m + 1) stack depth val (by omega) (by omega)⟩
            case h_2 hm =>
              exact ⟨rfl, by first | omega | (dsimp only; omega) | (dsimp only), ih cs.length stack depth val (by omega) (by omega)⟩
          case isFalse hop =>
            have htw := length_takeWhile_le (cs.drop (pos + 3)) (fun c => c ≠ ',')
            exact ⟨rfl, by first | omega | (dsimp only; omega) | (dsimp only), ih _ stack depth val (by omega) (by omega)⟩
        case h_2 hb3 =>
          have htw := length_takeWhile_le (cs.drop (pos + 3)) (fun c => c ≠ ',')
          exact ⟨rfl, by first | omega | (dsimp only; omega) | (dsimp only), ih _ stack depth val (by omega) (by omega)⟩
      case isFalse hby =>
        split
        case h_1 ds hds =>
          have hb := (matchFlag_bound hds).2
          exact ⟨rfl, by first | omega | (dsimp only; omega) | (dsimp only), ih _ stack depth _ (by omega) (by omega)⟩
        case h_2 hnds =>
          split
          case h_1 p ds ws hds =>
            have hb := (matchCondPos_bound hds).2
            exact ⟨rfl, by first | omega | (dsimp only; omega) | (dsimp only), ih _ _ _ _ (by omega) (by omega)⟩
          case h_2 =>
            split
            case h_1 p ds ws hds =>
              have hb := (matchCondNeg_bound hds).2
              exact ⟨rfl, by first | omega | (dsimp only; omega) | (dsimp only), ih _ _ _ _ (by omega) (by omega)⟩
            case h_2 =>
              split
              case h_1 ds hds =>
                have hb := (matchInvalidNeg_bound hds).2
                exact ⟨rfl, by first | omega | (dsimp only; omega) | (dsimp only), ih _ _ _ _ (by omega) (by omega)⟩
              case h_2 =>
                split
                case isTrue h =>
                  exact ⟨rfl, by first | omega | (dsimp only; omega) | (dsimp only), ih _ _ _ _ (by omega) (by omega)⟩
                case isFalse h =>
                  split
                  case h_1 p content weight hds =>
                    have hb := matchParen_bound hds
                    refine ⟨rfl, by first | omega | (dsimp only; omega) | (dsimp only), ?_⟩
                    split
                    case isTrue hc =>
                      have hc0 : content.length = 0 := by
                        rw [List.isEmpty_iff] at hc
                        simp [hc]
                      split
                      case isTrue hw =>
                        have hw0 : weight.length = 0 := by
                          rw [List.isEmpty_iff] at hw
                          simp [hw]
                        exact ⟨by first | omega | (dsimp only; omega) | (dsimp only), by first | omega | (dsimp only; omega) | (dsimp only),
                          ih _ _ _ _ (by omega) (by omega)⟩
                      case isFalse hw =>
                        have hw0 : 0 < weight.length := by
                          rw [List.isEmpty_iff] at hw
                          exact List.length_pos.mpr hw
                        exact ⟨by first | omega | (dsimp only; omega) | (dsimp only), by first | omega | (dsimp only; omega) | (dsimp only),
                          ⟨by first | omega | (dsimp only; omega) | (dsimp only), by first | omega | (dsimp only; omega) | (dsimp only),
                            ih _ _ _ _ (by omega) (by omega)⟩⟩
                    case isFalse hc =>
                      have hc0 : 0 < content.length := by
                        rw [List.isEmpty_iff] at hc
                        exact List.length_pos.mpr hc
                      split
                      case isTrue hw =>
                        have hw0 : weight.length = 0 := by
                          rw [List.isEmpty_iff] at hw
                          simp [hw]
                        exact ⟨by first | omega | (dsimp only; omega) | (dsimp only), by first | omega | (dsimp only; omega) | (dsimp only),
                          ⟨by first | omega | (dsimp only; omega) | (dsimp only), by first | omega | (dsimp only; omega) | (dsimp only),
                            ih _ _ _ _ (by omega) (by omega)⟩⟩
                      case isFalse hw =>
                        have hw0 : 0 < weight.length := by
                          rw [List.isEmpty_iff] at hw
                          exact List.length_pos.mpr hw
                        exact ⟨by first | omega | (dsimp only; omega) | (dsimp only), by first | omega | (dsimp only; omega) | (dsimp only),
                          ⟨by first | omega | (dsimp only; omega) | (dsimp only), by first | omega | (dsimp only; omega) | (dsimp only),
                            ⟨by first | omega | (dsimp only; omega) | (dsimp only), by first | omega | (dsimp only; omega) | (dsimp only),
                              ih _ _ _ _ (by omega) (by omega)⟩⟩⟩
                  case h_2 =>
                    split
                    case isTrue h =>
                      exact ⟨rfl, by first | omega | (dsimp only; omega) | (dsimp only), ih _ _ _ _ (by omega) (by omega)⟩
                    case isFalse =>
                      split
                      case isTrue h =>
                        split
                        · exact ⟨rfl, by first | omega | (dsimp only; omega) | (dsimp only), ih _ _ _ _ (by omega) (by omega)⟩
                        · exact ⟨rfl, by first | omega | (dsimp only; omega) | (dsimp only), ih _ _ _ _ (by omega) (by omega)⟩
                      case isFalse =>
                        split
                        case isTrue h =>
                          exact ⟨rfl, by first | omega | (dsimp only; omega) | (dsimp only), ih _ _ _ _ (by omega) (by omega)⟩
                        case isFalse =>
                          split
                          case isTrue h =>
                            split
                            · exact ⟨rfl, by first | omega | (dsimp only; omega) | (dsimp only), ih _ _ _ _ (by omega) (by omega)⟩
                            · exact ⟨rfl, by first | omega | (dsimp only; omega) | (dsimp only), ih _ _ _ _ (by omega) (by omega)⟩
                          case isFalse =>
                            split
                            case isTrue h =>
                              exact ⟨rfl, by first | omega | (dsimp only; omega) | (dsimp only), ih _ _ _ _ (by omega) (by omega)⟩
                            case isFalse =>
                              split
                              case isTrue h =>
                                exact ⟨rfl, by first | omega | (dsimp only; omega) | (dsimp only), ih _ _ _ _ (by omega) (by omega)⟩
                              case isFalse =>
                                split
                                case isTrue h =>
                                  exact ⟨rfl, by first | omega | (dsimp only; omega) | (dsimp only), ih _ _ _ _ (by omega) (by omega)⟩
                                case isFalse =>
                                  have htw := length_takeWhile_le (cs.drop (pos + 1))
                                    (fun c => !isStructural c)
                                  exact ⟨rfl, by first | omega | (dsimp only; omega) | (dsimp only), ih _ _ _ _ (by omega) (by omega)⟩

/-- **C1**: for every input string the scanner terminates and returns tokens
whose `[start, stop)` ranges are strictly increasing, non-overlapping, and
partition the entire input: every input character belongs to exactly one
token.  (Termination is inherent: `tokenize` is a total function.) -/
theorem c1_scanner_partition (cs : List Char) :
    Covers (tokenize cs).tokens 0 cs.length := by
  unfold tokenize
  exact tokLoop_covers cs (cs.length + 1) 0 [] 0 ⟨[], [], [], []⟩ (by omega) (by omega)

theorem drop_eq_cons_of_getElem? {cs : List Char} {pos : Nat} {ch : Char}
    (h : cs[pos]? = some ch) : cs.drop pos = ch :: cs.drop (pos + 1) := by
  have hlt : pos < cs.length := lt_length_of_getElem?_eq_some h
  rw [List.drop_eq_getElem_cons hlt]
  rw [List.getElem?_eq_getElem hlt] at h
  simp at h
  rw [h]

theorem tokLoop_text_chars (cs : List Char) :
    ∀ (fuel pos : Nat) (stack : List BrEntry) (depth : Nat) (val : Validation),
      ∀ t ∈ (tokLoop cs fuel pos stack depth val).tokens,
        t.type = TokType.text → ∀ c ∈ t.value, isStructural c = false := by
  intro fuel
  induction fuel with
  | zero =>
    intro pos stack depth val t ht
    simp [tokLoop] at ht
  | succ fuel ih =>
    intro pos stack depth val t
    simp only [tokLoop]
    cases hch : cs[pos]? with
    | none =>
      intro ht htype
      simp at ht
    | some ch =>
      simp only
      split
      case isTrue hby =>
        split
        case h_1 b hb3 =>
          split
          case isTrue hop =>
            split
            case h_1 m hm =>
              intro ht htype
              rcases List.mem_cons.mp ht with rfl | ht1
              · simp at htype
              · exact ih _ _ _ _ t ht1 htype
            case h_2 hm =>
              intro ht htype
              rcases List.mem_cons.mp ht with rfl | ht1
              · simp at htype
              · exact ih _ _ _ _ t ht1 htype
          case isFalse hop =>
            intro ht htype
            rcases List.mem_cons.mp ht with rfl | ht1
            · simp at htype
            · exact ih _ _ _ _ t ht1 htype
        case h_2 hb3 =>
          intro ht htype
          rcases List.mem_cons.mp ht with rfl | ht1
          · simp at htype
          · exact ih _ _ _ _ t ht1 htype
      case isFalse hby =>
        split
        case h_1 ds hds =>
          intro ht htype
          rcases List.mem_cons.mp ht with rfl | ht1
          · simp at htype
          · exact ih _ _ _ _ t ht1 htype
        case h_2 =>
          split
          case h_1 p ds ws hds =>
            intro ht htype
            rcases List.mem_cons.mp ht with rfl | ht1
            · simp at htype
            · exact ih _ _ _ _ t ht1 htype
          case h_2 =>
            split
            case h_1 p ds ws hds =>
              intro ht htype
              rcases List.mem_cons.mp ht with rfl | ht1
              · simp at htype
              · exact ih _ _ _ _ t ht1 htype
            case h_2 =>
              split
              case h_1 ds hds =>
                intro ht htype
                rcases List.mem_cons.mp ht with rfl | ht1
                · simp at htype
                · exact ih _ _ _ _ t ht1 htype
              case h_2 =>
                split
                case isTrue h =>
                  intro ht htype
                  rcases List.mem_cons.mp ht with rfl | ht1
                  · simp at htype
                  · exact ih _ _ _ _ t ht1 htype
                case isFalse h =>
                  split
                  case h_1 p content weight hds =>
                    intro ht htype
                    rcases List.mem_cons.mp ht with rfl | ht1
                    · simp at htype
                    rcases List.mem_append.mp ht1 with h2 | h2
                    · rcases List.mem_append.mp h2 with h3 | h3
                      · split at h3
                        · simp at h3
                        · rw [List.mem_singleton] at h3
                          subst h3
                          simp at htype
                      · split at h3
                        · simp at h3
                        · rw [List.mem_singleton] at h3
                          subst h3
                          simp at htype
                    rcases List.mem_cons.mp h2 with rfl | h4
                    · simp at htype
                    · exact ih _ _ _ _ t h4 htype
                  case h_2 =>
                    split
                    case isTrue h =>
                      intro ht htype
                      rcases List.mem_cons.mp ht with rfl | ht1
                      · simp at htype
                      · exact ih _ _ _ _ t ht1 htype
                    case isFalse h1 =>
                      split
                      case isTrue h =>
                        split <;>
                          (intro ht htype
                           rcases List.mem_cons.mp ht with rfl | ht1
                           · simp at htype
                           · exact ih _ _ _ _ t ht1 htype)
                      case isFalse h2 =>
                        split
                        case isTrue h =>
                          intro ht htype
                          rcases List.mem_cons.mp ht with rfl | ht1
                          · simp at htype
                          · exact ih _ _ _ _ t ht1 htype
                        case isFalse h3 =>
                          split
                          case isTrue h =>
                            split <;>
                              (intro ht htype
                               rcases List.mem_cons.mp ht with rfl | ht1
                               · simp at htype
                               · exact ih _ _ _ _ t ht1 htype)
                          case isFalse h4 =>
                            split
                            case isTrue h =>
                              intro ht htype
                              rcases List.mem_cons.mp ht with rfl | ht1
                              · simp at htype
                              · exact ih _ _ _ _ t ht1 htype
                            case isFalse h5 =>
                              split
                              case isTrue h =>
                                intro ht htype
                                rcases List.mem_cons.mp ht with rfl | ht1
                                · simp at htype
                                · exact ih _ _ _ _ t ht1 htype
                              case isFalse h6 =>
                                split
                                case isTrue h =>
                                  intro ht htype
                                  rcases List.mem_cons.mp ht with rfl | ht1
                                  · simp at htype
                                  · exact ih _ _ _ _ t ht1 htype
                                case isFalse h7 =>
                                  intro ht htype
                                  rcases List.mem_cons.mp ht with rfl | ht1
                                  · -- the plain-text token itself
                                    intro c hc
                                    dsimp only at hc
                                    rw [show pos + 1 +
                                        ((cs.drop (pos + 1)).takeWhile
                                          (fun c => !isStructural c)).length - pos
                                        = ((cs.drop (pos + 1)).takeWhile
                                          (fun c => !isStructural c)).length + 1
                                      from by omega] at hc
                                    rw [drop_eq_cons_of_getElem? hch, List.take_succ_cons,
                                      take_length_takeWhile] at hc
                                    rcases List.mem_cons.mp hc with rfl | hc2
                                    · simp [isStructural, h1, h2, h3, h4, h5, h6, h7]
                                    · have := List.mem_takeWhile_imp hc2
                                      simpa using this
                                  · exact ih _ _ _ _ t ht1 htype


/-- **C4 counterexample**: in `abc ---(x)` the `---` marker is *not*
recognized: the scanner emits no bypass token at all, and the first token is a
`PlainText` token whose value `abc ---` contains the marker, refuting the
claim that plain-text runs stop at the start of a `---` marker. -/
theorem c4_counterexample :
    (tokenize "abc ---(x)".toList).tokens.head? =
      some ⟨TokType.text, "abc ---".toList, 0, 7, none, false, false⟩ ∧
    ∀ t ∈ (tokenize "abc ---(x)".toList).tokens, t.type ≠ TokType.tagBypass := by
  decide

/-- **C4 amended**: every `PlainText` token the scanner emits contains none of
the seven structural characters `[`, `]`, `(`, `)`, `{`, `}`, `|`; it may
however contain `---`, since the text-accumulation loop only stops at those
seven characters and a bypass marker is only recognized when a scan position
lands exactly on it. -/
theorem c4_amended (cs : List Char) (t : Tok) (ht : t ∈ (tokenize cs).tokens)
    (htype : t.type = TokType.text) : ∀ c ∈ t.value, isStructural c = false :=
  tokLoop_text_chars cs (cs.length + 1) 0 [] 0 ⟨[], [], [], []⟩ t ht htype

/-- Witness for `c4_amended` at a concrete input. -/
theorem c4_amended_witness : isStructural 'a' = false :=
  c4_amended "ab".toList ⟨TokType.text, "ab".toList, 0, 2, none, false, false⟩
    (by decide) (by decide) 'a' (by decide)


set_option maxHeartbeats 1000000 in
/-- Master invariant of the scan loop's `validation` record: membership in
`flagsUsed` corresponds exactly to emitted `FLAG_TOKEN`s, membership in
`conditionalsUsed` to emitted conditional directives (positive or negative),
and `unbalancedBrackets` is exactly the prior contents plus the opening
positions of the entries left on the bracket stack at end of input, in
insertion order. -/
theorem tokLoop_validation (cs : List Char) :
    ∀ (fuel pos : Nat) (stack : List BrEntry) (depth : Nat) (val : Validation)
      (res : ScanResult), res = tokLoop cs fuel pos stack depth val →
      (∀ n, n ∈ res.validation.flagsUsed ↔
          n ∈ val.flagsUsed ∨ ∃ t ∈ res.tokens,
            t.type = TokType.flagToken ∧ t.flagId = some n) ∧
      (∀ n, n ∈ res.validation.conditionalsUsed ↔
          n ∈ val.conditionalsUsed ∨ ∃ t ∈ res.tokens,
            (t.type = TokType.condPosDirective ∨ t.type = TokType.condNegDirective) ∧
              t.flagId = some n) ∧
      (res.validation.unbalancedBrackets =
          val.unbalancedBrackets ++ (res.finalStack.reverse.map BrEntry.pos)) := by
  intro fuel
  induction fuel with
  | zero =>
    intro pos stack depth val res hres
    subst hres
    refine ⟨fun n => ?_, fun n => ?_, ?_⟩ <;> simp [tokLoop, flushStack]
  | succ fuel ih =>
    intro pos stack depth val res hres
    rw [tokLoop] at hres
    cases hch : cs[pos]? with
    | none =>
      rw [hch] at hres
      subst hres
      refine ⟨fun n => ?_, fun n => ?_, ?_⟩ <;> simp [flushStack]
    | some ch =>
      rw [hch] at hres
      simp only at hres
      split at hres
      case isTrue hby =>
        split at hres
        case h_1 b hb3 =>
          split at hres
          case isTrue hop =>
            split at hres
            case h_1 m hm =>
              subst hres
              refine ⟨fun n => ?_, fun n => ?_, ?_⟩
              · dsimp only
                rw [(ih _ _ _ _ _ rfl).1 n]
                simp [addSet_mem, eq_comm]
                try rw [or_assoc]
                try tauto
              · dsimp only
                rw [(ih _ _ _ _ _ rfl).2.1 n]
                simp [addSet_mem, eq_comm]
                try rw [or_assoc]
                try tauto
              · dsimp only
                exact (ih _ _ _ _ _ rfl).2.2
            case h_2 hm =>
              subst hres
              refine ⟨fun n => ?_, fun n => ?_, ?_⟩
              · dsimp only
                rw [(ih _ _ _ _ _ rfl).1 n]
                simp [addSet_mem, eq_comm]
                try rw [or_assoc]
                try tauto
              · dsimp only
                rw [(ih _ _ _ _ _ rfl).2.1 n]
                simp [addSet_mem, eq_comm]
                try rw [or_assoc]
                try tauto
              · dsimp only
                exact (ih _ _ _ _ _ rfl).2.2
          case isFalse hop =>
            subst hres
            refine ⟨fun n => ?_, fun n => ?_, ?_⟩
            · dsimp only
              rw [(ih _ _ _ _ _ rfl).1 n]
              simp [addSet_mem, eq_comm]
              try rw [or_assoc]
              try tauto
            · dsimp only
              rw [(ih _ _ _ _ _ rfl).2.1 n]
              simp [addSet_mem, eq_comm]
              try rw [or_assoc]
              try tauto
            · dsimp only
              exact (ih _ _ _ _ _ rfl).2.2
        case h_2 hb3 =>
          subst hres
          refine ⟨fun n => ?_, fun n => ?_, ?_⟩
          · dsimp only
            rw [(ih _ _ _ _ _ rfl).1 n]
            simp [addSet_mem, eq_comm]
            try rw [or_assoc]
            try tauto
          · dsimp only
            rw [(ih _ _ _ _ _ rfl).2.1 n]
            simp [addSet_mem, eq_comm]
            try rw [or_assoc]
            try tauto
          · dsimp only
            exact (ih _ _ _ _ _ rfl).2.2
      case isFalse hby =>
        split at hres
        case h_1 ds hds =>
          subst hres
          refine ⟨fun n => ?_, fun n => ?_, ?_⟩
          · dsimp only
            rw [(ih _ _ _ _ _ rfl).1 n]
            simp [addSet_mem, eq_comm]
            try rw [or_assoc]
            try tauto
          · dsimp only
            rw [(ih _ _ _ _ _ rfl).2.1 n]
            simp [addSet_mem, eq_comm]
            try rw [or_assoc]
            try tauto
          · dsimp only
            exact (ih _ _ _ _ _ rfl).2.2
        case h_2 =>
          split at hres
          case h_1 p ds ws hds =>
            subst hres
            refine ⟨fun n => ?_, fun n => ?_, ?_⟩
            · dsimp only
              rw [(ih _ _ _ _ _ rfl).1 n]
              simp [addSet_mem, eq_comm]
              try rw [or_assoc]
              try tauto
            · dsimp only
              rw [(ih _ _ _ _ _ rfl).2.1 n]
              simp [addSet_mem, eq_comm]
              try rw [or_assoc]
              try tauto
            · dsimp only
              exact (ih _ _ _ _ _ rfl).2.2
          case h_2 =>
            split at hres
            case h_1 p ds ws hds =>
              subst hres
              refine ⟨fun n => ?_, fun n => ?_, ?_⟩
              · dsimp only
                rw [(ih _ _ _ _ _ rfl).1 n]
                simp [addSet_mem, eq_comm]
                try rw [or_assoc]
                try tauto
              · dsimp only
                rw [(ih _ _ _ _ _ rfl).2.1 n]
                simp [addSet_mem, eq_comm]
                try rw [or_assoc]
                try tauto
              · dsimp only
                exact (ih _ _ _ _ _ rfl).2.2
            case h_2 =>
              split at hres
              case h_1 ds hds =>
                subst hres
                refine ⟨fun n => ?_, fun n => ?_, ?_⟩
                · dsimp only
                  rw [(ih _ _ _ _ _ rfl).1 n]
                  simp [addSet_mem, eq_comm]
                  try rw [or_assoc]
                  try tauto
                · dsimp only
                  rw [(ih _ _ _ _ _ rfl).2.1 n]
                  simp [addSet_mem, eq_comm]
                  try rw [or_assoc]
                  try tauto
                · dsimp only
                  exact (ih _ _ _ _ _ rfl).2.2
              case h_2 =>
                split at hres
                case isTrue hcc =>
                  subst hres
                  refine ⟨fun n => ?_, fun n => ?_, ?_⟩
                  · dsimp only
                    rw [(ih _ _ _ _ _ rfl).1 n]
                    simp [addSet_mem, eq_comm]
                    try rw [or_assoc]
                    try tauto
                  · dsimp only
                    rw [(ih _ _ _ _ _ rfl).2.1 n]
                    simp [addSet_mem, eq_comm]
                    try rw [or_assoc]
                    try tauto
                  · dsimp only
                    exact (ih _ _ _ _ _ rfl).2.2
                case isFalse hcc =>
                  split at hres
                  case h_1 p content weight hds =>
                    subst hres
                    refine ⟨fun n => ?_, fun n => ?_, ?_⟩
                    · dsimp only
                      rw [(ih _ _ _ _ _ rfl).1 n]
                      by_cases hc : content.isEmpty <;> by_cases hw : weight.isEmpty <;>
                        simp [hc, hw, addSet_mem, eq_comm] <;> try rw [or_assoc] <;> try tauto
                    · dsimp only
                      rw [(ih _ _ _ _ _ rfl).2.1 n]
                      by_cases hc : content.isEmpty <;> by_cases hw : weight.isEmpty <;>
                        simp [hc, hw, addSet_mem, eq_comm] <;> try rw [or_assoc] <;> try tauto
                    · dsimp only
                      exact (ih _ _ _ _ _ rfl).2.2
                  case h_2 =>
                    split at hres
                    case isTrue h1x =>
                      subst hres
                      refine ⟨fun n => ?_, fun n => ?_, ?_⟩
                      · dsimp only
                        rw [(ih _ _ _ _ _ rfl).1 n]
                        simp [addSet_mem, eq_comm]
                        try rw [or_assoc]
                        try tauto
                      · dsimp only
                        rw [(ih _ _ _ _ _ rfl).2.1 n]
                        simp [addSet_mem, eq_comm]
                        try rw [or_assoc]
                        try tauto
                      · dsimp only
                        exact (ih _ _ _ _ _ rfl).2.2
                    case isFalse h1 =>
                      split at hres
                      case isTrue h2x =>
                        split at hres
                        case isTrue hpt =>
                          subst hres
                          refine ⟨fun n => ?_, fun n => ?_, ?_⟩
                          · dsimp only
                            rw [(ih _ _ _ _ _ rfl).1 n]
                            simp [addSet_mem, eq_comm]
                            try rw [or_assoc]
                            try tauto
                          · dsimp only
                            rw [(ih _ _ _ _ _ rfl).2.1 n]
                            simp [addSet_mem, eq_comm]
                            try rw [or_assoc]
                            try tauto
                          · dsimp only
                            exact (ih _ _ _ _ _ rfl).2.2
                        case isFalse hpt =>
                          subst hres
                          refine ⟨fun n => ?_, fun n => ?_, ?_⟩
                          · dsimp only
                            rw [(ih _ _ _ _ _ rfl).1 n]
                            simp [addSet_mem, eq_comm]
                            try rw [or_assoc]
                            try tauto
                          · dsimp only
                            rw [(ih _ _ _ _ _ rfl).2.1 n]
                            simp [addSet_mem, eq_comm]
                            try rw [or_assoc]
                            try tauto
                          · dsimp only
                            exact (ih _ _ _ _ _ rfl).2.2
                      case isFalse h2 =>
                        split at hres
                        case isTrue h3x =>
                          subst hres
                          refine ⟨fun n => ?_, fun n => ?_, ?_⟩
                          · dsimp only
                            rw [(ih _ _ _ _ _ rfl).1 n]
                            simp [addSet_mem, eq_comm]
                            try rw [or_assoc]
                            try tauto
                          · dsimp only
                            rw [(ih _ _ _ _ _ rfl).2.1 n]
                            simp [addSet_mem, eq_comm]
                            try rw [or_assoc]
                            try tauto
                          · dsimp only
                            exact (ih _ _ _ _ _ rfl).2.2
                        case isFalse h3 =>
                          split at hres
                          case isTrue h4x =>
                            split at hres
                            case isTrue hct =>
                              subst hres
                              refine ⟨fun n => ?_, fun n => ?_, ?_⟩
                              · dsimp only
                                rw [(ih _ _ _ _ _ rfl).1 n]
                                simp [addSet_mem, eq_comm]
                                try rw [or_assoc]
                                try tauto
                              · dsimp only
                                rw [(ih _ _ _ _ _ rfl).2.1 n]
                                simp [addSet_mem, eq_comm]
                                try rw [or_assoc]
                                try tauto
                              · dsimp only
                                exact (ih _ _ _ _ _ rfl).2.2
                            case isFalse hct =>
                              subst hres
                              refine ⟨fun n => ?_, fun n => ?_, ?_⟩
                              · dsimp only
                                rw [(ih _ _ _ _ _ rfl).1 n]
                                simp [addSet_mem, eq_comm]
                                try rw [or_assoc]
                                try tauto
                              · dsimp only
                                rw [(ih _ _ _ _ _ rfl).2.1 n]
                                simp [addSet_mem, eq_comm]
                                try rw [or_assoc]
                                try tauto
                              · dsimp only
                                exact (ih _ _ _ _ _ rfl).2.2
                          case isFalse h4 =>
                            split at hres
                            case isTrue h5x =>
                              subst hres
                              refine ⟨fun n => ?_, fun n => ?_, ?_⟩
                              · dsimp only
                                rw [(ih _ _ _ _ _ rfl).1 n]
                                simp [addSet_mem, eq_comm]
                                try rw [or_assoc]
                                try tauto
                              · dsimp only
                                rw [(ih _ _ _ _ _ rfl).2.1 n]
                                simp [addSet_mem, eq_comm]
                                try rw [or_assoc]
                                try tauto
                              · dsimp only
                                exact (ih _ _ _ _ _ rfl).2.2
                            case isFalse h5 =>
                              split at hres
                              case isTrue h6x =>
                                subst hres
                                refine ⟨fun n => ?_, fun n => ?_, ?_⟩
                                · dsimp only
                                  rw [(ih _ _ _ _ _ rfl).1 n]
                                  simp [addSet_mem, eq_comm]
                                  try rw [or_assoc]
                                  try tauto
                                · dsimp only
                                  rw [(ih _ _ _ _ _ rfl).2.1 n]
                                  simp [addSet_mem, eq_comm]
                                  try rw [or_assoc]
                                  try tauto
                                · dsimp only
                                  exact (ih _ _ _ _ _ rfl).2.2
                              case isFalse h6 =>
                                split at hres
                                case isTrue h7x =>
                                  subst hres
                                  refine ⟨fun n => ?_, fun n => ?_, ?_⟩
                                  · dsimp only
                                    rw [(ih _ _ _ _ _ rfl).1 n]
                                    simp [addSet_mem, eq_comm]
                                    try rw [or_assoc]
                                    try tauto
                                  · dsimp only
                                    rw [(ih _ _ _ _ _ rfl).2.1 n]
                                    simp [addSet_mem, eq_comm]
                                    try rw [or_assoc]
                                    try tauto
                                  · dsimp only
                                    exact (ih _ _ _ _ _ rfl).2.2
                                case isFalse h7 =>
                                  subst hres
                                  refine ⟨fun n => ?_, fun n => ?_, ?_⟩
                                  · dsimp only
                                    rw [(ih _ _ _ _ _ rfl).1 n]
                                    simp [addSet_mem, eq_comm]
                                    try rw [or_assoc]
                                    try tauto
                                  · dsimp only
                                    rw [(ih _ _ _ _ _ rfl).2.1 n]
                                    simp [addSet_mem, eq_comm]
                                    try rw [or_assoc]
                                    try tauto
                                  · dsimp only
                                    exact (ih _ _ _ _ _ rfl).2.2

theorem matchFlag_none {ch : Char} {r : List Char} (h : ch ≠ '[') :
    matchFlag (ch :: r) = none := by
  rw [matchFlag.eq_def]
  split
  case h_1 r1 heq =>
    cases heq
    exact absurd rfl h
  case h_2 => rfl

theorem matchCondPos_none {ch : Char} {r : List Char} (h : ch ≠ '[') :
    matchCondPos (ch :: r) = none := by
  rw [matchCondPos.eq_def]
  split
  case h_1 r1 heq =>
    cases heq
    exact absurd rfl h
  case h_2 => rfl

theorem matchCondNeg_none {ch : Char} {r : List Char} (h : ch ≠ '[') :
    matchCondNeg (ch :: r) = none := by
  rw [matchCondNeg.eq_def]
  split
  case h_1 r1 heq =>
    cases heq
    exact absurd rfl h
  case h_2 => rfl

theorem matchInvalidNeg_none {ch : Char} {r : List Char} (h : ch ≠ '[') :
    matchInvalidNeg (ch :: r) = none := by
  rw [matchInvalidNeg.eq_def]
  split
  case h_1 r1 heq =>
    cases heq
    exact absurd rfl h
  case h_2 => rfl

theorem matchParen_none {ch : Char} {r : List Char} (h : ch ≠ '(') :
    matchParen (ch :: r) = none := by
  rw [matchParen.eq_def]
  split
  case h_1 r1 heq =>
    cases heq
    exact absurd rfl h
  case h_2 => rfl

/-- Past the end of the input the scan loop stops and flushes the stack. -/
theorem tokLoop_end (cs : List Char) (fuel pos : Nat) (stack : List BrEntry)
    (depth : Nat) (val : Validation) (h : cs.length ≤ pos) :
    tokLoop cs fuel pos stack depth val = ⟨[], flushStack stack val, stack⟩ := by
  cases fuel with
  | zero => rfl
  | succ fuel =>
    rw [tokLoop, List.getElem?_eq_none h]

/-- A nonempty remainder consisting only of non-structural characters, not
starting with `---`, is consumed as a single plain-text token, after which the
loop flushes and stops. -/
theorem tokLoop_plainRun (cs : List Char) (fuel pos : Nat) (stack : List BrEntry)
    (depth : Nat) (val : Validation)
    (hf : cs.length - pos < fuel) (hlt : pos < cs.length)
    (hns : ∀ c ∈ cs.drop pos, isStructural c = false)
    (hby : (cs.drop pos).take 3 ≠ ['-', '-', '-']) :
    tokLoop cs fuel pos stack depth val =
      ⟨[⟨TokType.text, cs.drop pos, pos, cs.length, none, false, false⟩],
        flushStack stack val, stack⟩ := by
  cases fuel with
  | zero => omega
  | succ fuel =>
    have hch : cs[pos]? = some cs[pos] := List.getElem?_eq_getElem hlt
    have hdrop : cs.drop pos = cs[pos] :: cs.drop (pos + 1) := drop_eq_cons_of_getElem? hch
    have hhead : isStructural cs[pos] = false := by
      apply hns
      rw [hdrop]
      exact List.mem_cons_self _ _
    have hne : ∀ c : Char, isStructural c = false → c ≠ '[' ∧ c ≠ ']' ∧ c ≠ '(' ∧
        c ≠ ')' ∧ c ≠ '{' ∧ c ≠ '}' ∧ c ≠ '|' := by
      intro c hc
      unfold isStructural at hc
      simp only [Bool.or_eq_false_iff, decide_eq_false_iff_not] at hc
      exact ⟨hc.1.1.1.1.1.1, hc.1.1.1.1.1.2, hc.1.1.1.1.2, hc.1.1.1.2, hc.1.1.2,
        hc.1.2, hc.2⟩
    obtain ⟨h1, h2, h3, h4, h5, h6, h7⟩ := hne _ hhead
    have htail : ∀ c ∈ cs.drop (pos + 1), isStructural c = false := by
      intro c hc
      apply hns
      rw [hdrop]
      exact List.mem_cons_of_mem _ hc
    have htw : (cs.drop (pos + 1)).takeWhile (fun c => !isStructural c) = cs.drop (pos + 1) := by
      rw [List.takeWhile_eq_self_iff]
      intro c hc
      simp [htail c hc]
    have hlen1 : (cs.drop (pos + 1)).length = cs.length - (pos + 1) := List.length_drop _ _
    have hlen0 : (cs.drop pos).length = cs.length - pos := List.length_drop _ _
    rw [tokLoop, hch]
    simp only
    rw [if_neg hby]
    rw [hdrop, matchFlag_none h1, matchCondPos_none h1, matchCondNeg_none h1,
      matchInvalidNeg_none h1, matchParen_none h3]
    simp only
    rw [if_neg (fun hc => h2 hc.1)]
    rw [if_neg h3, if_neg h4, if_neg h5, if_neg h6, if_neg h7, if_neg h1, if_neg h2]
    rw [htw]
    have he : pos + 1 + (cs.drop (pos + 1)).length = cs.length := by omega
    rw [he]
    rw [tokLoop_end cs fuel cs.length stack depth val (Nat.le_refl _)]
    have hval : (cs[pos] :: cs.drop (pos + 1)).take (cs.length - pos) = cs[pos] :: cs.drop (pos + 1) := by
      apply List.take_of_length_le
      simp only [List.length_cons, hlen1]
      omega
    rw [hval]


theorem tokLoop_lparenStep (cs : List Char) (fuel pos : Nat) (stack : List BrEntry)
    (depth : Nat) (val : Validation)
    (hch : cs[pos]? = some '(')
    (hnp : matchParen (cs.drop pos) = none) :
    tokLoop cs (fuel + 1) pos stack depth val =
      ⟨⟨TokType.parenOpen, ['('], pos, pos + 1, none, false, false⟩ ::
          (tokLoop cs fuel (pos + 1) (⟨BrKind.paren, pos⟩ :: stack) depth val).tokens,
        (tokLoop cs fuel (pos + 1) (⟨BrKind.paren, pos⟩ :: stack) depth val).validation,
        (tokLoop cs fuel (pos + 1) (⟨BrKind.paren, pos⟩ :: stack) depth val).finalStack⟩ := by
  have hdrop : cs.drop pos = '(' :: cs.drop (pos + 1) := drop_eq_cons_of_getElem? hch
  rw [tokLoop, hch]
  simp only
  rw [if_neg (by rw [hdrop]; simp)]
  rw [hdrop, matchFlag_none (by decide), matchCondPos_none (by decide),
    matchCondNeg_none (by decide), matchInvalidNeg_none (by decide)]
  simp only
  rw [if_neg (fun hc => by exact absurd hc.1 (by decide))]
  rw [← hdrop, hnp]
  simp only
  simp only [if_true]

/-- **C6**: (a) the `UnbalancedBracket` diagnostics are exactly the opening
positions of the bracket-stack entries left unpopped at end of input, one
diagnostic per entry, in insertion order; (b) an input consisting of one `(`
followed by plain text (no structural characters, not starting with `---`)
and no `)` produces exactly one diagnostic, at position 0 of that `(`. -/
theorem c6_unbalanced_diagnostics :
    (∀ cs : List Char, (tokenize cs).validation.unbalancedBrackets =
        ((tokenize cs).finalStack.reverse.map BrEntry.pos)) ∧
    (∀ s : List Char, (∀ c ∈ s, isStructural c = false) → s.take 3 ≠ ['-', '-', '-'] →
      (tokenize ('(' :: s)).validation.unbalancedBrackets = [0]) := by
  constructor
  · intro cs
    have h := (tokLoop_validation cs (cs.length + 1) 0 [] 0 ⟨[], [], [], []⟩ _ rfl).2.2
    simpa using h
  · intro s hns hby
    have hstw : s.takeWhile (fun c => !isStructural c) = s := by
      rw [List.takeWhile_eq_self_iff]
      intro c hc
      simp [hns c hc]
    have hmp : matchParen ('(' :: s) = none := by
      rw [matchParen.eq_def]
      simp only
      rw [hstw, List.drop_length]
    show (tokLoop ('(' :: s) (('(' :: s).length + 1) 0 [] 0
        ⟨[], [], [], []⟩).validation.unbalancedBrackets = [0]
    rw [tokLoop_lparenStep ('(' :: s) (('(' :: s).length) 0 [] 0 ⟨[], [], [], []⟩
      (by simp) (by rw [List.drop_zero]; exact hmp)]
    dsimp only
    cases s with
    | nil =>
      rw [tokLoop_end _ _ _ _ _ _ (by simp)]
      simp [flushStack]
    | cons a s' =>
      rw [tokLoop_plainRun _ _ _ _ _ _ (by simp) (by simp)
        (by simpa using hns) (by simpa using hby)]
      simp [flushStack]

/-- Witness for part (b) of `c6_unbalanced_diagnostics` at a concrete input. -/
theorem c6_unbalanced_diagnostics_witness :
    (tokenize "(abc".toList).validation.unbalancedBrackets = [0] :=
  c6_unbalanced_diagnostics.2 "abc".toList (by decide) (by decide)


/-- **C7**: a flag id is reported as an orphan exactly when a `FLAG_TOKEN`
with that id appears in the token stream while no conditional directive
(positive or negative) with that id does; and the concrete input `[5]`
(flag 5 activated, zero directives) yields exactly the one orphan entry 5. -/
theorem c7_orphan_flag_iff :
    (∀ (cs : List Char) (n : Nat),
      n ∈ orphanFlags (tokenize cs).validation ↔
        ((∃ t ∈ (tokenize cs).tokens, t.type = TokType.flagToken ∧ t.flagId = some n) ∧
          ¬ ∃ t ∈ (tokenize cs).tokens,
            (t.type = TokType.condPosDirective ∨ t.type = TokType.condNegDirective) ∧
              t.flagId = some n)) ∧
    orphanFlags (tokenize "[5]".toList).validation = [5] := by
  constructor
  · intro cs n
    have h := tokLoop_validation cs (cs.length + 1) 0 [] 0 ⟨[], [], [], []⟩ (tokenize cs) rfl
    unfold orphanFlags
    rw [List.mem_filter]
    simp only [decide_eq_true_eq]
    rw [h.1 n, h.2.1 n]
    simp
  · decide

theorem tokLoop_textCharStep (cs : List Char) (fuel pos : Nat) (stack : List BrEntry)
    (depth : Nat) (val : Validation) (ch b : Char)
    (hch : cs[pos]? = some ch) (hns : isStructural ch = false)
    (hby : (cs.drop pos).take 3 ≠ ['-', '-', '-'])
    (hnext : cs[pos + 1]? = some b) (hb : isStructural b = true) :
    tokLoop cs (fuel + 1) pos stack depth val =
      ⟨⟨TokType.text, [ch], pos, pos + 1, none, false, false⟩ ::
          (tokLoop cs fuel (pos + 1) stack depth val).tokens,
        (tokLoop cs fuel (pos + 1) stack depth val).validation,
        (tokLoop cs fuel (pos + 1) stack depth val).finalStack⟩ := by
  have hdrop : cs.drop pos = ch :: cs.drop (pos + 1) := drop_eq_cons_of_getElem? hch
  have hdrop1 : cs.drop (pos + 1) = b :: cs.drop (pos + 2) := drop_eq_cons_of_getElem? hnext
  have hne : ∀ c : Char, isStructural c = false → c ≠ '[' ∧ c ≠ ']' ∧ c ≠ '(' ∧
      c ≠ ')' ∧ c ≠ '{' ∧ c ≠ '}' ∧ c ≠ '|' := by
    intro c hcf
    unfold isStructural at hcf
    simp only [Bool.or_eq_false_iff, decide_eq_false_iff_not] at hcf
    exact ⟨hcf.1.1.1.1.1.1, hcf.1.1.1.1.1.2, hcf.1.1.1.1.2, hcf.1.1.1.2, hcf.1.1.2,
      hcf.1.2, hcf.2⟩
  obtain ⟨h1, h2, h3, h4, h5, h6, h7⟩ := hne ch hns
  have htw : (cs.drop (pos + 1)).takeWhile (fun c => !isStructural c) = [] := by
    rw [hdrop1]
    rw [List.takeWhile_cons_of_neg]
    simp [hb]
  rw [tokLoop, hch]
  simp only
  rw [if_neg hby]
  rw [hdrop, matchFlag_none h1, matchCondPos_none h1, matchCondNeg_none h1,
    matchInvalidNeg_none h1, matchParen_none h3]
  simp only
  rw [if_neg (fun hc => h2 hc.1)]
  rw [if_neg h3, if_neg h4, if_neg h5, if_neg h6, if_neg h7, if_neg h1, if_neg h2]
  rw [htw]
  simp only [List.length_nil, Nat.add_zero]
  rw [show pos + 1 - pos = 1 from by omega]
  rfl

/-- **C5 counterexample**: the scanner has no escape handling; on `\(abc` the
lone `(` is pushed on the bracket stack and the end-of-input flush reports an
unclosed-paren diagnostic (at position 1), refuting the claim that `\(`
followed by plain text yields no UnbalancedBracket diagnostic. -/
theorem c5_counterexample :
    (tokenize "\\(abc".toList).validation.unbalancedBrackets = [1] ∧
    (tokenize "\\(abc".toList).validation.unbalancedBrackets ≠ [] := by
  decide

/-- **C5 amended**: there is no `Escape` token kind; a backslash is ordinary
plain text, `\(` contributes a bare `(` that is pushed on the bracket stack,
and `\(` followed by plain text (no structural characters, not starting with
`---`) and no `)` yields exactly one UnbalancedBracket diagnostic, at the
position of the `(` (offset 1). -/
theorem c5_amended (s : List Char) (hns : ∀ c ∈ s, isStructural c = false)
    (hby : s.take 3 ≠ ['-', '-', '-']) :
    (tokenize ('\\' :: '(' :: s)).validation.unbalancedBrackets = [1] := by
  have hstw : s.takeWhile (fun c => !isStructural c) = s := by
    rw [List.takeWhile_eq_self_iff]
    intro c hc
    simp [hns c hc]
  have hmp : matchParen ('(' :: s) = none := by
    rw [matchParen.eq_def]
    simp only
    rw [hstw, List.drop_length]
  show (tokLoop ('\\' :: '(' :: s) (('\\' :: '(' :: s).length + 1) 0 [] 0
      ⟨[], [], [], []⟩).validation.unbalancedBrackets = [1]
  rw [tokLoop_textCharStep ('\\' :: '(' :: s) ('\\' :: '(' :: s).length 0 [] 0
    ⟨[], [], [], []⟩ '\\' '(' (by simp) (by decide) (by simp) (by simp) (by decide)]
  dsimp only
  show (tokLoop ('\\' :: '(' :: s) (('(' :: s).length + 1) 1 [] 0
      ⟨[], [], [], []⟩).validation.unbalancedBrackets = [1]
  rw [tokLoop_lparenStep ('\\' :: '(' :: s) ('(' :: s).length 1 [] 0 ⟨[], [], [], []⟩
    (by simp) (by rw [show ('\\' :: '(' :: s).drop 1 = '(' :: s from rfl]; exact hmp)]
  dsimp only
  cases s with
  | nil =>
    rw [tokLoop_end _ _ _ _ _ _ (by simp)]
    simp [flushStack]
  | cons a s' =>
    rw [tokLoop_plainRun _ _ _ _ _ _ (by simp) (by simp)
      (by simpa using hns) (by simpa using hby)]
    simp [flushStack]

/-- Witness for `c5_amended` at a concrete input. -/
theorem c5_amended_witness :
    (tokenize ('\\' :: '(' :: "abc".toList)).validation.unbalancedBrackets = [1] :=
  c5_amended "abc".toList (by decide) (by decide)

/-- Characterization of the simple-bypass scan `while (text[endPos] !== ',')`:
starting at offset `k`, it stops at the first comma at or after `k`, or at end
of input when there is none. -/
theorem firstComma_char (cs : List Char) (k : Nat) (hk : k ≤ cs.length) :
    (∀ i, k ≤ i → i < k + ((cs.drop k).takeWhile (fun c => c ≠ ',')).length →
        cs[i]? ≠ some ',') ∧
    (k + ((cs.drop k).takeWhile (fun c => c ≠ ',')).length = cs.length ∨
      cs[k + ((cs.drop k).takeWhile (fun c => c ≠ ',')).length]? = some ',') ∧
    k + ((cs.drop k).takeWhile (fun c => c ≠ ',')).length ≤ cs.length := by
  have hdl : (cs.drop k).length = cs.length - k := List.length_drop _ _
  have htw := length_takeWhile_le (cs.drop k) (fun c => c ≠ ',')
  refine ⟨?_, ?_, by omega⟩
  · intro i hi1 hi2 hc
    have hj : (cs.drop k)[i - k]? = some ',' := by
      rw [List.getElem?_drop]
      rw [show k + (i - k) = i from by omega]
      exact hc
    have := getElem?_lt_length_takeWhile (p := fun c => c ≠ ',') (by omega) hj
    simp at this
  · cases hbd : (cs.drop k)[((cs.drop k).takeWhile (fun c => c ≠ ',')).length]? with
    | none =>
      left
      have := List.getElem?_eq_none_iff.mp hbd
      omega
    | some c =>
      right
      have hstop := getElem?_length_takeWhile hbd
      simp at hstop
      subst hstop
      rw [← List.getElem?_drop]
      exact hbd

/-- **C3**: behaviour of a recognized `---` bypass marker (here at the start
of the input; the branch does not depend on the scan state).  (a) If the
character after `---` is a paired opener and the recursive nesting-aware
search finds its matching close at `m`, the bypass token extends exactly to
`m + 1`, the character at `m` really is the matching closer, and the token is
not marked unbalanced.  (b) If no matching close is found the bypass token
extends to end of input and is marked unbalanced, and is the only token.
(c) Otherwise the token extends up to (not including) the first literal comma
at or after offset 3, or to end of input when there is none. -/
theorem c3_bypass_extent (cs : List Char) (h3 : cs.take 3 = ['-', '-', '-']) :
    (∀ b m, cs[3]? = some b → (b = '(' ∨ b = '[' ∨ b = '{') →
      findMatchingBracket cs 4 b (closeOf b) = some m →
        4 ≤ m ∧ m < cs.length ∧ cs[m]? = some (closeOf b) ∧
        ∃ rest, (tokenize cs).tokens =
          ⟨TokType.tagBypass, cs.take (m + 1), 0, m + 1, none, false, false⟩ :: rest) ∧
    (∀ b, cs[3]? = some b → (b = '(' ∨ b = '[' ∨ b = '{') →
      findMatchingBracket cs 4 b (closeOf b) = none →
        (tokenize cs).tokens =
          [⟨TokType.tagBypass, cs, 0, cs.length, none, false, true⟩]) ∧
    ((∀ b, cs[3]? = some b → ¬(b = '(' ∨ b = '[' ∨ b = '{')) →
      ∃ rest e, (tokenize cs).tokens =
          ⟨TokType.tagBypass, cs.take e, 0, e, none, false, false⟩ :: rest ∧
        3 ≤ e ∧ e ≤ cs.length ∧
        (∀ i, 3 ≤ i → i < e → cs[i]? ≠ some ',') ∧
        (e = cs.length ∨ cs[e]? = some ',')) := by
  have hlen3 : 3 ≤ cs.length := take3_length h3
  have hshape : cs = '-' :: '-' :: '-' :: cs.drop 3 := by
    conv_lhs => rw [← List.take_append_drop 3 cs]
    rw [h3]
    rfl
  have hc0 : cs[0]? = some '-' := by
    conv_lhs => rw [hshape]
    rfl
  have hby : (cs.drop 0).take 3 = ['-', '-', '-'] := by
    rw [List.drop_zero]
    exact h3
  refine ⟨?_, ?_, ?_⟩
  · intro b m hb hop hm
    obtain ⟨hm1, hm2, hm3⟩ := findMatchingBracket_some hm
    refine ⟨hm1, hm2, hm3, ?_⟩
    show ∃ rest, (tokLoop cs (cs.length + 1) 0 [] 0 ⟨[], [], [], []⟩).tokens = _
    rw [tokLoop, hc0]
    simp only
    rw [if_pos hby]
    simp only [Nat.zero_add]
    rw [hb]
    simp only
    rw [if_pos hop, hm]
    simp only [Nat.zero_add, Nat.sub_zero, List.drop_zero]
    exact ⟨_, rfl⟩
  · intro b hb hop hm
    show (tokLoop cs (cs.length + 1) 0 [] 0 ⟨[], [], [], []⟩).tokens = _
    rw [tokLoop, hc0]
    simp only
    rw [if_pos hby]
    simp only [Nat.zero_add]
    rw [hb]
    simp only
    rw [if_pos hop, hm]
    simp only [List.drop_zero]
    rw [tokLoop_end _ _ _ _ _ _ (Nat.le_refl _)]
  · intro hnop
    obtain ⟨hno, hbd, hle⟩ := firstComma_char cs 3 hlen3
    have htoks : (tokenize cs).tokens =
        ⟨TokType.tagBypass, cs.take (3 + ((cs.drop 3).takeWhile (fun c => c ≠ ',')).length),
          0, 3 + ((cs.drop 3).takeWhile (fun c => c ≠ ',')).length, none, false, false⟩ ::
        (tokLoop cs cs.length (3 + ((cs.drop 3).takeWhile (fun c => c ≠ ',')).length)
          [] 0 ⟨[], [], [], []⟩).tokens := by
      show (tokLoop cs (cs.length + 1) 0 [] 0 ⟨[], [], [], []⟩).tokens = _
      rw [tokLoop, hc0]
      simp only
      rw [if_pos hby]
      simp only [Nat.zero_add]
      cases hb3 : cs[3]? with
      | none =>
        simp only [Nat.zero_add, Nat.sub_zero, List.drop_zero]
      | some b =>
        simp only
        rw [if_neg (hnop b hb3)]
        simp only [Nat.zero_add, Nat.sub_zero, List.drop_zero]
    exact ⟨_, _, htoks, by omega, hle, hno, hbd⟩

/-- Witness for `c3_bypass_extent`, exercising part (a) on `---(a[)]b)x`:
the nesting-aware search skips the `[)]` group (the stray `)` inside the
square brackets does not close the paren), the close is found at offset 9 and
the bypass token spans `[0, 10)`. -/
theorem c3_bypass_extent_witness :
    4 ≤ 9 ∧ 9 < "---(a[)]b)x".toList.length ∧
      "---(a[)]b)x".toList[9]? = some (closeOf '(') ∧
      ∃ rest, (tokenize "---(a[)]b)x".toList).tokens =
        ⟨TokType.tagBypass, "---(a[)]b)x".toList.take 10, 0, 10, none, false, false⟩ :: rest :=
  (c3_bypass_extent "---(a[)]b)x".toList (by decide)).1 '(' 9 (by decide)
    (by decide) (by decide)

theorem getElem?_of_drop_eq_cons {cs r : List Char} {pos : Nat} {c : Char}
    (h : cs.drop pos = c :: r) : cs[pos]? = some c := by
  have h0 := List.getElem?_drop cs pos 0
  rw [h] at h0
  simpa using h0.symm

theorem warns_of_pos :
    ∀ (k pos d : Nat), 0 < d →
      warns pos d k = (List.range k).map (fun i => pos + 3 * i) := by
  intro k
  induction k with
  | zero =>
    intro pos d hd
    simp [warns]
  | succ k ih =>
    intro pos d hd
    rw [warns, if_pos hd, ih (pos + 3) (d + 1) (by omega), List.range_succ_eq_map,
      List.map_cons, List.map_map]
    simp only [List.singleton_append, Nat.mul_zero, Nat.add_zero]
    congr 1
    apply List.map_congr_left
    intro i _
    simp only [Function.comp]
    omega

theorem tokLoop_condRepeat (cs : List Char) :
    ∀ (k fuel pos : Nat) (stack : List BrEntry) (depth : Nat) (val : Validation),
      cs.drop pos = (List.replicate k ['[', '1', ':']).flatten →
      pos + 3 * k = cs.length →
      cs.length - pos < fuel →
      (tokLoop cs fuel pos stack depth val).validation.nestedConditionals =
        val.nestedConditionals ++ warns pos depth k := by
  intro k
  induction k with
  | zero =>
    intro fuel pos stack depth val hdrop hlen hf
    rw [tokLoop_end _ _ _ _ _ _ (by omega)]
    simp [flushStack, warns]
  | succ k ihk =>
    intro fuel pos stack depth val hdrop hlen hf
    rw [List.replicate_succ, List.flatten_cons] at hdrop
    simp only [List.cons_append, List.nil_append] at hdrop
    have hch : cs[pos]? = some '[' := getElem?_of_drop_eq_cons hdrop
    have hrest : cs.drop (pos + 3) = (List.replicate k ['[', '1', ':']).flatten := by
      have hdd : cs.drop (pos + 3) = (cs.drop pos).drop 3 := by
        rw [List.drop_drop]
      rw [hdd, hdrop]
      rfl
    have htw1 : ('1' :: ':' :: (List.replicate k ['[', '1', ':']).flatten).takeWhile
        Char.isDigit = ['1'] := by
      rw [List.takeWhile_cons_of_pos (by decide), List.takeWhile_cons_of_neg (by decide)]
    have hws : ((List.replicate k ['[', '1', ':']).flatten).takeWhile jsSpace = [] := by
      cases k with
      | zero => rfl
      | succ k =>
        rw [List.replicate_succ, List.flatten_cons]
        simp only [List.cons_append, List.nil_append]
        rw [List.takeWhile_cons_of_neg (by decide)]
    have hmcp : matchCondPos (cs.drop pos) =
        some (['1'], ((List.replicate k ['[', '1', ':']).flatten).takeWhile jsSpace) := by
      rw [hdrop]
      rw [matchCondPos.eq_def]
      simp only
      rw [htw1]
      simp
    have hmf : matchFlag (cs.drop pos) = none := by
      rw [hdrop]
      rw [matchFlag.eq_def]
      simp only
      rw [htw1]
      simp
    have hby : ¬ (cs.drop pos).take 3 = ['-', '-', '-'] := by
      rw [hdrop]
      simp
    cases fuel with
    | zero => omega
    | succ fuel =>
      rw [tokLoop, hch]
      simp only
      rw [if_neg hby]
      rw [hmf]
      simp only
      rw [hmcp]
      simp only
      rw [hws]
      simp only [List.length_singleton, List.length_nil]
      rw [ihk fuel (pos + (1 + 0 + 2)) _ _ _ (by
          rw [show pos + (1 + 0 + 2) = pos + 3 from by omega]
          exact hrest)
        (by omega) (by omega)]
      dsimp only
      rw [warns]
      split
      · simp
        try omega
      · simp
        try omega


theorem replicate_flatten_length (m : Nat) :
    ((List.replicate m ['[', '1', ':']).flatten).length = 3 * m := by
  induction m with
  | zero => rfl
  | succ m ih =>
    rw [List.replicate_succ, List.flatten_cons]
    simp only [List.length_append, ih]
    simp
    omega

/-- **C8 counterexample**: with twelve consecutive `[1:` directives, the
twelfth (at offset 33) is opened while eleven conditionals are already open —
more than 10 — and it *does* receive a nested-conditional warning: offset 33
appears in `nestedConditionals`, refuting the claimed 10-level cap. -/
theorem c8_counterexample :
    (tokenize ((List.replicate 12 ['[', '1', ':']).flatten)).validation.nestedConditionals
      = [3, 6, 9, 12, 15, 18, 21, 24, 27, 30, 33] ∧
    (33 : Nat) ∈
      (tokenize ((List.replicate 12 ['[', '1', ':']).flatten)).validation.nestedConditionals := by
  decide

/-- **C8 amended**: nesting warnings are emitted for *every* conditional
directive opened while at least one conditional is already open, with no
upper bound on the depth: `n + 1` consecutive `[1:` directives produce
exactly the `n` warnings at offsets `3, 6, …, 3n`, however large `n` is. -/
theorem c8_amended (n : Nat) :
    (tokenize ((List.replicate (n + 1) ['[', '1', ':']).flatten)).validation.nestedConditionals
      = (List.range n).map (fun i => 3 * i + 3) := by
  have h := tokLoop_condRepeat ((List.replicate (n + 1) ['[', '1', ':']).flatten)
    (n + 1) (((List.replicate (n + 1) ['[', '1', ':']).flatten).length + 1) 0 [] 0
    ⟨[], [], [], []⟩ (by rw [List.drop_zero]) (by rw [replicate_flatten_length]; omega)
    (by omega)
  show (tokLoop _ _ 0 [] 0 ⟨[], [], [], []⟩).validation.nestedConditionals = _
  rw [h]
  rw [warns]
  simp only [Nat.lt_irrefl, if_false, List.nil_append]
  rw [warns_of_pos n 3 1 (by omega)]
  apply List.map_congr_left
  intro i _
  omega

theorem replaceChar_flatMap (target : Char) (repl : List Char) :
    ∀ s : List Char, replaceChar target repl s =
      (s.map (fun c => if c = target then repl else [c])).flatten := by
  intro s
  induction s with
  | nil => rfl
  | cons c r ih =>
    rw [replaceChar, List.map_cons, List.flatten_cons, ih]

/-- **C9**: `escapeHTML` rewrites every `&`, `<`, `>`, `"` of the input to its
HTML entity — it equals the per-character entity map — and consequently its
output never contains a literal `<`, `>`, or `"`, so token text interpolated
into the backdrop's innerHTML can neither introduce a tag nor break out of
the generated span's quoted attribute. -/
theorem c9_escapeHTML_safe :
    ∀ s : List Char,
      escapeHTML s = (s.map esc1).flatten ∧
      ∀ c ∈ escapeHTML s, c ≠ '<' ∧ c ≠ '>' ∧ c ≠ '"' := by
  intro s
  have heq : escapeHTML s = (s.map esc1).flatten := by
    induction s with
    | nil => rfl
    | cons c r ih =>
      unfold escapeHTML at ih ⊢
      rw [List.map_cons, List.flatten_cons, ← ih]
      rw [replaceChar]
      by_cases h1 : c = '&'
      · subst h1
        simp [esc1, replaceChar]
      · rw [if_neg h1]
        by_cases h2 : c = '<'
        · subst h2
          simp [esc1, replaceChar]
        · by_cases h3 : c = '>'
          · subst h3
            simp [esc1, replaceChar]
          · by_cases h4 : c = '"'
            · subst h4
              simp [esc1, replaceChar]
            · by_cases h5 : c = ' '
              · subst h5
                simp [esc1, replaceChar, h1, h2, h3, h4]
              · by_cases h6 : c = '\n'
                · subst h6
                  simp [esc1, replaceChar, h1, h2, h3, h4]
                · simp [esc1, replaceChar, h1, h2, h3, h4, h5, h6]
    
  refine ⟨heq, ?_⟩
  intro c hc
  rw [heq] at hc
  rw [List.mem_flatten] at hc
  obtain ⟨l, hl, hcl⟩ := hc
  rw [List.mem_map] at hl
  obtain ⟨a, _, ha⟩ := hl
  subst ha
  unfold esc1 at hcl
  by_cases h1 : a = '&'
  · simp [h1] at hcl
    rcases hcl with rfl | rfl | rfl | rfl | rfl <;> decide
  · by_cases h2 : a = '<'
    · simp [h1, h2] at hcl
      rcases hcl with rfl | rfl | rfl | rfl <;> decide
    · by_cases h3 : a = '>'
      · simp [h1, h2, h3] at hcl
        rcases hcl with rfl | rfl | rfl | rfl <;> decide
      · by_cases h4 : a = '"'
        · simp [h1, h2, h3, h4] at hcl
          rcases hcl with rfl | rfl | rfl | rfl | rfl | rfl <;> decide
        · simp [h1, h2, h3, h4] at hcl
          subst hcl
          exact ⟨h2, h3, h4⟩

/-- **C10**: `updateComboOptions` sets `options.values` to the new list;
keeps `value` when it is already a member; otherwise selects the first
element (or `""` when the list is empty, which equals `List.headD "" `); so a
nonempty list always leaves `value` a member; and a missing widget or a
widget without an options object is left unchanged. -/
theorem c10_updateComboOptions :
    (∀ opts, updateComboOptions none opts = none) ∧
    (∀ v opts, updateComboOptions (some ⟨v, none⟩) opts = some ⟨v, none⟩) ∧
    (∀ v vals opts, ∃ w',
      updateComboOptions (some ⟨v, some ⟨vals⟩⟩) opts = some w' ∧
      w'.options = some ⟨opts⟩ ∧
      (v ∈ opts → w'.value = v) ∧
      (v ∉ opts → w'.value = opts.headD "") ∧
      (opts ≠ [] → w'.value ∈ opts)) := by
  refine ⟨fun opts => rfl, fun v opts => rfl, fun v vals opts => ?_⟩
  unfold updateComboOptions
  simp only
  by_cases hv : opts.contains v
  · rw [if_pos hv]
    have hmem : v ∈ opts := List.mem_of_elem_eq_true hv
    exact ⟨_, rfl, rfl, fun _ => rfl, fun hn => absurd hmem hn, fun _ => hmem⟩
  · rw [if_neg hv]
    have hnm : v ∉ opts := fun hm => hv (List.elem_eq_true_of_mem hm)
    have hjs : jsFirstOrEmpty opts = opts.headD "" := by
      cases opts with
      | nil => rfl
      | cons a l =>
        unfold jsFirstOrEmpty
        by_cases ha : a = ""
        · simp [ha]
        · simp [ha]
    refine ⟨_, rfl, rfl, fun hm => absurd hm hnm, fun _ => hjs, fun hne => ?_⟩
    rw [hjs]
    cases opts with
    | nil => exact absurd rfl hne
    | cons a l => exact List.mem_cons_self _ _

/-- Witness for `c10_updateComboOptions`: concrete instantiation of the
third part, discharging the membership hypotheses. -/
theorem c10_updateComboOptions_witness :
    ∃ w', updateComboOptions (some ⟨"x", some ⟨["a"]⟩⟩) ["b", "c"] = some w' ∧
      w'.value = "b" ∧ w'.value ∈ ["b", "c"] := by
  obtain ⟨w', h1, _, _, h4, h5⟩ := c10_updateComboOptions.2.2 "x" ["a"] ["b", "c"]
  exact ⟨w', h1, by rw [h4 (by decide)]; rfl, h5 (by decide)⟩

theorem takeWhile_append_stop {p : Char → Bool} {stopc : Char} (hs : p stopc = false) :
    ∀ (A rest : List Char), (A ++ stopc :: rest).takeWhile p = A.takeWhile p := by
  intro A rest
  induction A with
  | nil =>
    simp [List.takeWhile_cons_of_neg, hs]
  | cons a t ih =>
    by_cases ha : p a
    · rw [List.cons_append, List.takeWhile_cons_of_pos ha, ih,
        List.takeWhile_cons_of_pos ha]
    · rw [List.cons_append, List.takeWhile_cons_of_neg (by simp [ha]),
        List.takeWhile_cons_of_neg (by simp [ha])]

theorem dropWhile_eq_drop_takeWhile (l : List Char) (p : Char → Bool) :
    l.dropWhile p = l.drop (l.takeWhile p).length := by
  induction l with
  | nil => rfl
  | cons a t ih =>
    by_cases ha : p a
    · rw [List.dropWhile_cons_of_pos ha, List.takeWhile_cons_of_pos ha, ih]
      rfl
    · rw [List.dropWhile_cons_of_neg (by simp [ha]), List.takeWhile_cons_of_neg (by simp [ha])]
      rfl

theorem takeWhile_add_dropWhile_length (l : List Char) (p : Char → Bool) :
    (l.takeWhile p).length + (l.dropWhile p).length = l.length := by
  rw [dropWhile_eq_drop_takeWhile, List.length_drop]
  have := length_takeWhile_le l p
  omega

theorem mem_of_mem_dropWhile {l : List Char} {p : Char → Bool} {c : Char}
    (h : c ∈ l.dropWhile p) : c ∈ l := by
  rw [dropWhile_eq_drop_takeWhile] at h
  exact List.drop_subset _ _ h

theorem drop_takeWhile_length_append {p : Char → Bool} {stopc : Char}
    (hs : p stopc = false) (A rest : List Char) :
    (A ++ stopc :: rest).drop ((A.takeWhile p).length) = A.dropWhile p ++ stopc :: rest := by
  rw [List.drop_append_of_le_length (length_takeWhile_le A p),
    ← dropWhile_eq_drop_takeWhile]

/-! Step equations for the resolver's scanning passes. -/

theorem rmfAux_cons_ne {c : Char} {l : List Char} (h : c ≠ '[') :
    rmfAux 0 (c :: l) = c :: rmfAux 0 l := by
  simp only [rmfAux, if_neg h]

theorem rmnAux_cons_ne {c : Char} {l : List Char} (h : c ≠ '[') :
    rmnAux 0 (c :: l) = c :: rmnAux 0 l := by
  simp only [rmnAux, if_neg h]

theorem rcAux_cons_ne (F : List Nat) {c : Char} {l : List Char} (h : c ≠ '[') :
    rcAux F 0 (c :: l) = c :: rcAux F 0 l := by
  simp only [rcAux, if_neg h]

theorem rmfAux_seg {xs : List Char} (h : ∀ c ∈ xs, c ≠ '[') :
    ∀ r, rmfAux 0 (xs ++ r) = xs ++ rmfAux 0 r := by
  induction xs with
  | nil => intro r; rfl
  | cons a t ih =>
    intro r
    rw [List.cons_append, rmfAux_cons_ne (h a (List.mem_cons_self a t)),
      ih (fun c hc => h c (List.mem_cons_of_mem a hc)) r, List.cons_append]

theorem rmnAux_seg {xs : List Char} (h : ∀ c ∈ xs, c ≠ '[') :
    ∀ r, rmnAux 0 (xs ++ r) = xs ++ rmnAux 0 r := by
  induction xs with
  | nil => intro r; rfl
  | cons a t ih =>
    intro r
    rw [List.cons_append, rmnAux_cons_ne (h a (List.mem_cons_self a t)),
      ih (fun c hc => h c (List.mem_cons_of_mem a hc)) r, List.cons_append]

theorem rcAux_seg (F : List Nat) {xs : List Char} (h : ∀ c ∈ xs, c ≠ '[') :
    ∀ r, rcAux F 0 (xs ++ r) = xs ++ rcAux F 0 r := by
  induction xs with
  | nil => intro r; rfl
  | cons a t ih =>
    intro r
    rw [List.cons_append, rcAux_cons_ne F (h a (List.mem_cons_self a t)),
      ih (fun c hc => h c (List.mem_cons_of_mem a hc)) r, List.cons_append]

theorem rmfAux_skip : ∀ (xs r : List Char), rmfAux xs.length (xs ++ r) = rmfAux 0 r := by
  intro xs
  induction xs with
  | nil => intro r; rfl
  | cons a t ih => intro r; exact ih r

theorem rmnAux_skip : ∀ (xs r : List Char), rmnAux xs.length (xs ++ r) = rmnAux 0 r := by
  intro xs
  induction xs with
  | nil => intro r; rfl
  | cons a t ih => intro r; exact ih r

theorem rcAux_skip (F : List Nat) :
    ∀ (xs r : List Char), rcAux F xs.length (xs ++ r) = rcAux F 0 r := by
  intro xs
  induction xs with
  | nil => intro r; rfl
  | cons a t ih => intro r; exact ih r

theorem takeWhile_digits_colon {ds : List Char} (hdig : ∀ c ∈ ds, c.isDigit = true)
    (rest : List Char) :
    ((ds ++ ':' :: rest).takeWhile Char.isDigit) = ds := by
  rw [takeWhile_append_stop (by decide), List.takeWhile_eq_self_iff.mpr hdig]

theorem flagPat_head_nondigit {c : Char} {r : List Char} (h : c.isDigit = false) :
    flagPat (c :: r) = none := by
  unfold flagPat
  rw [List.takeWhile_cons_of_neg (by simp [h])]
  rfl

theorem flagPat_digits_colon {ds rest : List Char} (hdig : ∀ c ∈ ds, c.isDigit = true) :
    flagPat (ds ++ ':' :: rest) = none := by
  unfold flagPat
  rw [takeWhile_digits_colon hdig]
  split
  · rfl
  · rw [List.drop_left]
    rfl

theorem inegPat_head_ne {c : Char} {r : List Char} (h : c ≠ '-') :
    inegPat (c :: r) = none := by
  rw [inegPat.eq_def]
  split
  case h_1 r1 heq =>
    rw [show c = '-' from (List.cons.injEq .. ▸ heq).1] at h
    exact absurd rfl h
  case h_2 => rfl

theorem inegPat_digits_colon {ds rest : List Char} (hdig : ∀ c ∈ ds, c.isDigit = true) :
    inegPat ('-' :: (ds ++ ':' :: rest)) = none := by
  rw [show inegPat ('-' :: (ds ++ ':' :: rest)) =
      (if ((ds ++ ':' :: rest).takeWhile Char.isDigit).isEmpty then none
       else match (ds ++ ':' :: rest).drop (((ds ++ ':' :: rest).takeWhile Char.isDigit).length) with
        | ']' :: _ => some ((ds ++ ':' :: rest).takeWhile Char.isDigit)
        | _ => none) from rfl]
  rw [takeWhile_digits_colon hdig]
  split
  · rfl
  · rw [List.drop_left]
    rfl

theorem condContentChar_true {c : Char} (h1 : c ≠ ']') (h2 : c ≠ '\n') :
    condContentChar c = true := by
  simp [condContentChar, h1, h2]

theorem condPatCore_block {ds A rest : List Char}
    (hds : ds ≠ []) (hdig : ∀ c ∈ ds, c.isDigit = true)
    (hA : ∀ c ∈ A, c ≠ ']' ∧ c ≠ '\n') :
    condPatCore (ds ++ ':' :: ' ' :: (A ++ ']' :: rest)) =
      some (natOfDigits ds, A.dropWhile jsSpace, ds.length + A.length + 3) := by
  have hws : wsOf (' ' :: (A ++ ']' :: rest)) = ' ' :: A.takeWhile jsSpace := by
    unfold wsOf
    rw [List.takeWhile_cons_of_pos (by decide), takeWhile_append_stop (by decide)]
  have hdw : (' ' :: (A ++ ']' :: rest)).drop (wsOf (' ' :: (A ++ ']' :: rest))).length
      = A.dropWhile jsSpace ++ ']' :: rest := by
    rw [hws, List.length_cons, List.drop_succ_cons, drop_takeWhile_length_append (by decide)]
  have hct : contentOf (' ' :: (A ++ ']' :: rest)) = A.dropWhile jsSpace := by
    unfold contentOf
    rw [hdw, takeWhile_append_stop (by decide), List.takeWhile_eq_self_iff.mpr]
    intro c hc
    obtain ⟨hc1, hc2⟩ := hA c (mem_of_mem_dropWhile hc)
    exact condContentChar_true hc1 hc2
  unfold condPatCore
  rw [takeWhile_digits_colon hdig]
  rw [if_neg (by simp [hds])]
  rw [List.drop_left]
  simp only
  rw [hdw, hct, List.drop_left]
  have harith : ds.length + 1 + (wsOf (' ' :: (A ++ ']' :: rest))).length +
      (A.dropWhile jsSpace).length + 1 = ds.length + A.length + 3 := by
    rw [hws]
    have h1 := takeWhile_add_dropWhile_length A jsSpace
    simp only [List.length_cons]
    omega
  rw [harith]
  rfl

theorem condPat_neg_block {ds A rest : List Char}
    (hds : ds ≠ []) (hdig : ∀ c ∈ ds, c.isDigit = true)
    (hA : ∀ c ∈ A, c ≠ ']' ∧ c ≠ '\n') :
    condPat ('-' :: (ds ++ ':' :: ' ' :: (A ++ ']' :: rest))) =
      some (true, natOfDigits ds, A.dropWhile jsSpace, ds.length + A.length + 4) := by
  rw [show condPat ('-' :: (ds ++ ':' :: ' ' :: (A ++ ']' :: rest))) =
      (condPatCore (ds ++ ':' :: ' ' :: (A ++ ']' :: rest))).map
        (fun p => (true, p.1, p.2.1, p.2.2 + 1)) from rfl]
  rw [condPatCore_block hds hdig hA]
  rfl

theorem condPat_pos_block {d : Char} {ds' A rest : List Char}
    (hdig : ∀ c ∈ d :: ds', c.isDigit = true)
    (hA : ∀ c ∈ A, c ≠ ']' ∧ c ≠ '\n') :
    condPat ((d :: ds') ++ ':' :: ' ' :: (A ++ ']' :: rest)) =
      some (false, natOfDigits (d :: ds'), A.dropWhile jsSpace,
        (d :: ds').length + A.length + 3) := by
  have hd : d.isDigit = true := hdig d (List.mem_cons_self _ _)
  have hd1 : d ≠ '-' := by
    intro h
    rw [h] at hd
    exact absurd hd (by decide)
  have hd2 : d ≠ '+' := by
    intro h
    rw [h] at hd
    exact absurd hd (by decide)
  rw [condPat.eq_def]
  split
  case h_1 t heq =>
    exact absurd ((List.cons.injEq .. ▸ heq).1) hd1
  case h_2 t heq =>
    exact absurd ((List.cons.injEq .. ▸ heq).1) hd2
  case h_3 =>
    rw [condPatCore_block (by simp) hdig hA]
    rfl

theorem rmfAux_open_none {r : List Char} (h : flagPat r = none) :
    rmfAux 0 ('[' :: r) = '[' :: rmfAux 0 r := by
  simp [rmfAux, h]

theorem rmnAux_open_none {r : List Char} (h : inegPat r = none) :
    rmnAux 0 ('[' :: r) = '[' :: rmnAux 0 r := by
  simp [rmnAux, h]

theorem rcAux_open_some (F : List Nat) {r : List Char} {neg : Bool}
    {fid : Nat} {content : List Char} {skip : Nat}
    (h : condPat r = some (neg, fid, content, skip)) :
    rcAux F 0 ('[' :: r) =
      (if (if neg then ¬ fid ∈ F else fid ∈ F) then content else []) ++ rcAux F skip r := by
  simp [rcAux, h]

theorem digit_ne_chars {ds : List Char} (hdig : ∀ c ∈ ds, c.isDigit = true) :
    ∀ c ∈ ds, c ≠ '[' := by
  intro c hc h
  rw [h] at hc
  exact absurd (hdig '[' hc) (by decide)

theorem seg_no_open {ds A : List Char} (hdig : ∀ c ∈ ds, c.isDigit = true)
    (hA : ∀ c ∈ A, c ≠ '[') :
    ∀ c ∈ ds ++ ':' :: ' ' :: (A ++ [']']), c ≠ '[' := by
  intro c hc
  simp only [List.mem_append, List.mem_cons, List.not_mem_nil, or_false] at hc
  rcases hc with hc | hc | hc | hc | hc
  · exact digit_ne_chars hdig c hc
  · subst hc; decide
  · subst hc; decide
  · exact hA c hc
  · subst hc; decide

theorem fmt_assoc₁ (ds A : List Char) (rest : List Char) :
    ds ++ ':' :: ' ' :: (A ++ ']' :: rest) = (ds ++ ':' :: ' ' :: (A ++ [']'])) ++ rest := by
  simp [List.append_assoc]

theorem rmfAux_fmtPair {ds A B : List Char}
    (hdig : ∀ c ∈ ds, c.isDigit = true)
    (hA : ∀ c ∈ A, c ≠ '[' ∧ c ≠ ']' ∧ c ≠ '\n')
    (hB : ∀ c ∈ B, c ≠ '[' ∧ c ≠ ']' ∧ c ≠ '\n') :
    rmfAux 0 (fmtPair ds A B) = fmtPair ds A B := by
  unfold fmtPair
  rw [rmfAux_open_none (flagPat_head_nondigit (by decide))]
  rw [rmfAux_cons_ne (by decide)]
  rw [fmt_assoc₁]
  rw [rmfAux_seg (seg_no_open hdig (fun c hc => (hA c hc).1))]
  rw [rmfAux_open_none (flagPat_digits_colon hdig)]
  rw [show ds ++ ':' :: ' ' :: (B ++ [']']) = (ds ++ ':' :: ' ' :: (B ++ [']'])) ++ []
    from (List.append_nil _).symm]
  rw [rmfAux_seg (seg_no_open hdig (fun c hc => (hB c hc).1))]
  rw [show rmfAux 0 [] = [] from rfl]

theorem rmnAux_fmtPair {ds A B : List Char}
    (hdig : ∀ c ∈ ds, c.isDigit = true)
    (hA : ∀ c ∈ A, c ≠ '[' ∧ c ≠ ']' ∧ c ≠ '\n')
    (hB : ∀ c ∈ B, c ≠ '[' ∧ c ≠ ']' ∧ c ≠ '\n') :
    rmnAux 0 (fmtPair ds A B) = fmtPair ds A B := by
  unfold fmtPair
  rw [rmnAux_open_none (inegPat_digits_colon hdig)]
  rw [rmnAux_cons_ne (by decide)]
  rw [fmt_assoc₁]
  rw [rmnAux_seg (seg_no_open hdig (fun c hc => (hA c hc).1))]
  rw [rmnAux_open_none ?hneg]
  case hneg =>
    cases hd : ds with
    | nil => rfl
    | cons d ds' =>
      apply inegPat_head_ne
      have := hdig d (by rw [hd]; exact List.mem_cons_self _ _)
      intro h
      rw [h] at this
      exact absurd this (by decide)
  rw [show ds ++ ':' :: ' ' :: (B ++ [']']) = (ds ++ ':' :: ' ' :: (B ++ [']'])) ++ []
    from (List.append_nil _).symm]
  rw [rmnAux_seg (seg_no_open hdig (fun c hc => (hB c hc).1))]
  rw [show rmnAux 0 [] = [] from rfl]

theorem rcAux_fmtPair (F : List Nat) {ds A B : List Char} (hds : ds ≠ [])
    (hdig : ∀ c ∈ ds, c.isDigit = true)
    (hA : ∀ c ∈ A, c ≠ '[' ∧ c ≠ ']' ∧ c ≠ '\n')
    (hB : ∀ c ∈ B, c ≠ '[' ∧ c ≠ ']' ∧ c ≠ '\n') :
    rcAux F 0 (fmtPair ds A B) =
      (if natOfDigits ds ∈ F then B.dropWhile jsSpace else A.dropWhile jsSpace) := by
  unfold fmtPair
  rw [rcAux_open_some F (condPat_neg_block hds hdig (fun c hc => (hA c hc).2))]
  have hskip1 : ds.length + A.length + 4 =
      ('-' :: (ds ++ ':' :: ' ' :: (A ++ [']']))).length := by
    simp
    omega
  rw [show '-' :: (ds ++ ':' :: ' ' :: (A ++ ']' :: ('[' :: (ds ++ ':' :: ' ' :: (B ++ [']'])))))
      = ('-' :: (ds ++ ':' :: ' ' :: (A ++ [']']))) ++ ('[' :: (ds ++ ':' :: ' ' :: (B ++ [']'])))
    from by simp]
  rw [hskip1, rcAux_skip F]
  obtain ⟨d, ds', rfl⟩ : ∃ d ds', ds = d :: ds' := by
    cases ds with
    | nil => exact absurd rfl hds
    | cons d ds' => exact ⟨d, ds', rfl⟩
  rw [rcAux_open_some F (condPat_pos_block hdig (fun c hc => (hB c hc).2))]
  have hskip2 : (d :: ds').length + B.length + 3 =
      ((d :: ds') ++ ':' :: ' ' :: (B ++ [']'])).length := by
    simp
    omega
  rw [show (d :: ds') ++ ':' :: ' ' :: (B ++ ']' :: [])
      = ((d :: ds') ++ ':' :: ' ' :: (B ++ [']'])) ++ [] from by simp]
  rw [hskip2, rcAux_skip F]
  rw [show rcAux F 0 [] = [] from rfl]
  by_cases hmem : natOfDigits (d :: ds') ∈ F
  · simp [hmem]
  · simp [hmem]

/-- C2 (counterexample): the documented example outputs are not what the
specified pipeline produces.  With flag 1 active (the input carries `[1]`),
the result is not `portrait, with glasses` (a trailing comma survives the
whitespace cleanup), and with flag 1 inactive the result is not
`portrait, without glasses` (a doubled comma survives). -/
theorem c2_counterexample :
    resolve ("portrait [1], [1: with glasses], [-1: without glasses]".toList)
      ≠ "portrait, with glasses".toList ∧
    resolve ("portrait, [1: with glasses], [-1: without glasses]".toList)
      ≠ "portrait, without glasses".toList := by
  constructor
  · decide
  · decide

/-- C2 (amended): for every flag set `F`, digit-run `K` and bracket-free,
newline-free contents `A` and `B`, resolving `[-K: A][K: B]` keeps exactly
one block — the normalized `B` when `K ∈ F`, the normalized `A` otherwise;
on the documented example the exact outputs are `portrait, with glasses,`
(flag 1 active) and `portrait,, without glasses` (flag 1 inactive). -/
theorem c2_amended :
    (∀ (F : List Nat) (ds A B : List Char),
        ds ≠ [] → (∀ c ∈ ds, c.isDigit = true) →
        (∀ c ∈ A, c ≠ '[' ∧ c ≠ ']' ∧ c ≠ '\n') →
        (∀ c ∈ B, c ≠ '[' ∧ c ≠ ']' ∧ c ≠ '\n') →
        resolveWithFlags F (fmtPair ds A B) =
          normalizeWs (if natOfDigits ds ∈ F then B.dropWhile jsSpace
            else A.dropWhile jsSpace)) ∧
    resolve ("portrait [1], [1: with glasses], [-1: without glasses]".toList)
      = "portrait, with glasses,".toList ∧
    resolve ("portrait, [1: with glasses], [-1: without glasses]".toList)
      = "portrait,, without glasses".toList := by
  refine ⟨?_, by decide, by decide⟩
  intro F ds A B hds hdig hA hB
  unfold resolveWithFlags
  rw [rmfAux_fmtPair hdig hA hB, rmnAux_fmtPair hdig hA hB,
    rcAux_fmtPair F hds hdig hA hB]

/-- C2 witness: the amended equality instantiated at `F = [1]`, `K = 1`,
`A = no`, `B = yes`. -/
theorem c2_amended_witness :
    resolveWithFlags [1] (fmtPair ['1'] "no".toList "yes".toList) =
      normalizeWs (if natOfDigits ['1'] ∈ [1] then ("yes".toList).dropWhile jsSpace
        else ("no".toList).dropWhile jsSpace) :=
  c2_amended.1 [1] ['1'] "no".toList "yes".toList (by decide) (by decide)
    (by decide) (by decide)

end Bedrot
